import Mathlib

/-!
Shallow embedding of the TLV stream codec (package `tlv`): `NewStream`,
`Stream.Encode`, `Stream.Decode` / `Stream.DecodeWithParsedTypes` (via the
shared helper `Stream.decode`), and `Stream.getRecord`.

Wire types are Go `uint64` values, embedded as `Nat` with explicit `% 2^64`
where the Go arithmetic can wrap.  Readers are byte lists; a writer is a
sink that accepts a bounded number of write calls before failing, modelling
an `io.Writer` that can error.  A `Record`'s externally owned value and its
sizeOf/encode/decode capabilities (defined in repository files that are not
part of the sources at hand) are instantiated at the primitive raw-byte
record: the value is a byte list, sizeOf is its length, encode writes the
bytes, decode reads exactly `length` bytes into the value.  The Go code
mutates the value through a pointer; the embedding threads the updated
record list through the decode state instead.
-/

namespace Tlv

/-- Go `math.MaxUint64`, the maximum representable wire type. -/
def maxUint64 : Nat := 2 ^ 64 - 1

/-- `MaxRecordSize` from the source: the maximum size of a record that will
be parsed by a stream decoder (65535 bytes). -/
def MaxRecordSize : Nat := 65535

/-- The error values surfaced by the codec: `io.EOF`, `io.ErrUnexpectedEOF`,
`ErrStreamNotCanonical`, `ErrRecordTooLarge`, `ErrUnknownRequiredType`, and
a verbatim underlying channel error (carrying an opaque code). -/
inductive Err where
  | eof
  | unexpectedEOF
  | streamNotCanonical
  | recordTooLarge
  | unknownRequiredType (t : Nat)
  | ioErr (code : Nat)
deriving DecidableEq, Repr

deriving instance DecidableEq for Except

/-- Modelled from the spec: a Record binds a field type identifier to an
externally owned value plus sizeOf/encode/decode capabilities (the Record
definition is not among the sources at hand).  It is instantiated at the
primitive raw-byte record: `value` is the referenced byte storage, sizeOf
is `value.length`, encode emits `value`, decode stores exactly the declared
number of bytes read from the input into `value`. -/
structure Record where
  typ : Nat
  value : List Nat
deriving DecidableEq, Repr, Inhabited

/-- A TLV stream: the ordered collection of records known to it.  The Go
struct's scratch buffer `buf` only exists to avoid allocation during VarInt
I/O and carries no semantic state, so it is not represented. -/
structure Stream where
  records : List Record
deriving DecidableEq, Repr

/-- The validation loop of `NewStream`: tracks the minimum acceptable next
type and the overflow flag; fails with `ErrStreamNotCanonical` if a record's
type is below the running minimum or appears after a `math.MaxUint64` type.
`min` advances to `typ + 1` with Go `uint64` wraparound. -/
def newStreamRecords : List Record → Nat → Bool → Except Err (List Record)
  | [], _, _ => .ok []
  | r :: rest, min, overflow =>
    if overflow ∨ r.typ < min then .error .streamNotCanonical
    else
      (newStreamRecords rest ((r.typ + 1) % 2 ^ 64)
        (overflow || (r.typ == maxUint64))).map (r :: ·)

/-- `NewStream`: asserts that the records appear in strictly ascending type
order (via `newStreamRecords`) and builds the stream. -/
def NewStream (records : List Record) : Except Err Stream :=
  (newStreamRecords records 0 false).map Stream.mk

/-- Modelled from the spec: `WriteVarInt` (the VarInt codec is not among the
sources at hand).  A non-negative integer is written in 1, 3, 5, or 9 bytes
depending on magnitude, the standard compact-size convention: values below
0xfd in one byte, below 2^16 as 0xfd plus two big-endian bytes, below 2^32
as 0xfe plus four bytes, otherwise 0xff plus eight bytes. -/
def beBytes : Nat → Nat → List Nat
  | 0, _ => []
  | k + 1, n => (n / 2 ^ (8 * k)) % 256 :: beBytes k n

/-- Big-endian recombination of a byte list into an integer. -/
def beCombine : List Nat → Nat
  | [] => 0
  | b :: rest => b * 2 ^ (8 * rest.length) + beCombine rest

/-- Modelled from the spec: write a value with the minimal-width compact-size
encoding (1, 3, 5, or 9 bytes by magnitude tier). -/
def WriteVarInt (n : Nat) : List Nat :=
  if n < 0xfd then [n]
  else if n < 0x10000 then 0xfd :: beBytes 2 n
  else if n < 0x100000000 then 0xfe :: beBytes 4 n
  else 0xff :: beBytes 8 n

/-- Modelled from the spec: read a compact-size integer from the input.
An empty input signals the distinct clean-end condition (`io.EOF`); an
input that ends after the discriminant but before the extension bytes is a
truncation (`io.ErrUnexpectedEOF`), since the spec promotes any clean end
that is not exactly at a value boundary to a truncation failure. -/
def readExt (k : Nat) (rest : List Nat) : Except Err (Nat × List Nat) :=
  if rest.length < k then .error .unexpectedEOF
  else .ok (beCombine (rest.take k), rest.drop k)

def ReadVarInt : List Nat → Except Err (Nat × List Nat)
  | [] => .error .eof
  | b :: rest =>
    if b < 0xfd then .ok (b, rest)
    else readExt (if b = 0xfd then 2 else if b = 0xfe then 4 else 8) rest

/-- The walk of `Stream.getRecord` over the remaining records, carrying the
absolute index counter: stops with success at the first record of the target
type, advances past records of smaller type, and stops with failure at the
first record of larger type (or at the end of the list). -/
def getRecordGo (typ : Nat) : List Record → Nat → Record × Nat × Bool
  | [], idx => (default, idx, false)
  | r :: rest, idx =>
    if r.typ = typ then (r, idx + 1, true)
    else if r.typ < typ then getRecordGo typ rest (idx + 1)
    else (default, idx, false)

/-- `Stream.getRecord`: searches the records known to the stream for `typ`
starting at `idx`, returning the record, the index from which the next
search should resume, and whether the record was found. -/
def Stream.getRecord (s : Stream) (typ : Nat) (idx : Nat) :
    Record × Nat × Bool :=
  getRecordGo typ (s.records.drop idx) idx

/-- An `io.Writer` for `Encode`: accumulates written bytes and, when
`failAfter = some k`, accepts exactly `k` further write calls before every
subsequent call fails with the channel error `Err.ioErr errCode` (writing
nothing).  `failAfter = none` never fails. -/
structure Writer where
  written : List Nat
  failAfter : Option Nat
  errCode : Nat
deriving DecidableEq, Repr

/-- One write call against the sink. -/
def Writer.write (w : Writer) (bs : List Nat) : Except Err Writer :=
  match w.failAfter with
  | none => .ok { w with written := w.written ++ bs }
  | some 0 => .error (.ioErr w.errCode)
  | some (k + 1) =>
    .ok { written := w.written ++ bs, failAfter := some k, errCode := w.errCode }

/-- The loop of `Stream.Encode`: for each record in stored order, write the
type as a VarInt, the value's size as a VarInt, then the encoded value; the
first failing write aborts immediately and its error is returned verbatim. -/
def encodeRecords : List Record → Writer → Writer × Option Err
  | [], w => (w, none)
  | r :: rest, w =>
    match w.write (WriteVarInt r.typ) with
    | .error e => (w, some e)
    | .ok w1 =>
      match w1.write (WriteVarInt r.value.length) with
      | .error e => (w1, some e)
      | .ok w2 =>
        match w2.write r.value with
        | .error e => (w2, some e)
        | .ok w3 => encodeRecords rest w3

/-- `Stream.Encode`: writes the stream's records to the sink. -/
def Stream.Encode (s : Stream) (w : Writer) : Writer × Option Err :=
  encodeRecords s.records w

/-- The local state of the `Stream.decode` loop: the minimum acceptable next
type, the first deferred unknown-required type, the resumable `getRecord`
cursor, the overflow flag, the optional tracked type set (`some` exactly
when the caller requested tracking), and the current record values (the Go
code updates values through each record's pointer; the embedding carries
the updated list here). -/
structure DecState where
  min : Nat
  firstFail : Option Nat
  recordIdx : Nat
  overflow : Bool
  parsed : Option (List Nat)
  recs : List Record
deriving DecidableEq

/-- What `Stream.decode` produces: the final record values, the type set
returned to the caller (Go returns a nil set on most failures), and the
error, if any.  The Go `TypeSet` is a set with membership-only semantics;
since a type is recorded only after passing the strictly-ascending
canonicality check, the recorded types are distinct and the set is
embedded as the duplicate-free list of types in recording order. -/
structure DecResult where
  recs : List Record
  parsed : Option (List Nat)
  err : Option Err
deriving DecidableEq

/-- Result of one iteration of the decode loop: either the call returns, or
the loop continues with an updated state and the remaining input. -/
inductive StepRes where
  | done (res : DecResult)
  | cont (st : DecState) (rest : List Nat)
deriving DecidableEq

/-- One iteration of the `Stream.decode` loop: read the type (a clean EOF
here terminates, surfacing any deferred failure), check canonical ordering,
read the length, enforce `MaxRecordSize`, then either run the matching
record's decoder, fail on an untracked unknown even type, or discard the
record's bytes (remembering the first unknown even type when tracking);
finally record the type if tracking and advance min/overflow/cursor. -/
def decodeStep (st : DecState) (data : List Nat) : StepRes :=
  match ReadVarInt data with
  | .error .eof =>
    match st.firstFail with
    | none => .done ⟨st.recs, st.parsed, none⟩
    | some t => .done ⟨st.recs, st.parsed, some (.unknownRequiredType t)⟩
  | .error e => .done ⟨st.recs, none, some e⟩
  | .ok (typ, data1) =>
    if st.overflow ∨ typ < st.min then
      .done ⟨st.recs, none, some .streamNotCanonical⟩
    else
      match ReadVarInt data1 with
      | .error .eof => .done ⟨st.recs, none, some .unexpectedEOF⟩
      | .error e => .done ⟨st.recs, none, some e⟩
      | .ok (len, data2) =>
        if len > MaxRecordSize then .done ⟨st.recs, none, some .recordTooLarge⟩
        else
          match getRecordGo typ (st.recs.drop st.recordIdx) st.recordIdx with
          | (_, newIdx, true) =>
            if len ≤ data2.length then
              .cont
                { min := (typ + 1) % 2 ^ 64
                  firstFail := st.firstFail
                  recordIdx := newIdx
                  overflow := st.overflow || (typ == maxUint64)
                  parsed := st.parsed.map (· ++ [typ])
                  recs := st.recs.set (newIdx - 1) ⟨typ, data2.take len⟩ }
                (data2.drop len)
            else .done ⟨st.recs, none, some .unexpectedEOF⟩
          | (_, newIdx, false) =>
            if typ % 2 = 0 ∧ st.parsed = none then
              .done ⟨st.recs, none, some (.unknownRequiredType typ)⟩
            else
              if len ≤ data2.length then
                .cont
                  { min := (typ + 1) % 2 ^ 64
                    firstFail :=
                      if typ % 2 = 0 then some (st.firstFail.getD typ)
                      else st.firstFail
                    recordIdx := newIdx
                    overflow := st.overflow || (typ == maxUint64)
                    parsed := st.parsed.map (· ++ [typ])
                    recs := st.recs }
                  (data2.drop len)
              else .done ⟨st.recs, none, some .unexpectedEOF⟩

/-- The decode loop, driven by a fuel bound.  Each iteration consumes at
least one input byte, so `data.length + 1` units of fuel always suffice and
the out-of-fuel branch is unreachable from `Stream.decode`. -/
def decodeLoop : Nat → DecState → List Nat → DecResult
  | 0, st, _ => ⟨st.recs, none, some .unexpectedEOF⟩
  | fuel + 1, st, data =>
    match decodeStep st data with
    | .done res => res
    | .cont st' rest => decodeLoop fuel st' rest

/-- The initial decode state: min 0, no deferred failure, cursor 0, no
overflow, and an empty type set exactly when tracking was requested. -/
def initState (tracked : Bool) (recs : List Record) : DecState :=
  ⟨0, none, 0, false, if tracked then some [] else none, recs⟩

/-- `Stream.decode`, the shared helper behind `Decode` (tracked = false,
nil type set) and `DecodeWithParsedTypes` (tracked = true). -/
def Stream.decode (s : Stream) (tracked : Bool) (data : List Nat) :
    DecResult :=
  decodeLoop (data.length + 1) (initState tracked s.records) data

/-- `Stream.Decode`: untracked decoding; the caller sees the updated record
values and the error. -/
def Stream.Decode (s : Stream) (data : List Nat) : List Record × Option Err :=
  ((s.decode false data).recs, (s.decode false data).err)

/-- `Stream.DecodeWithParsedTypes`: tracked decoding, returning the type
set alongside the outcome. -/
def Stream.DecodeWithParsedTypes (s : Stream) (data : List Nat) : DecResult :=
  s.decode true data

/-- A wire record as the encoder lays it out: a type and the value bytes
(the declared length is the value's length). -/
structure Frame where
  typ : Nat
  val : List Nat
deriving DecidableEq, Repr

/-- The serialized form of one wire record. -/
def encodeFrame (f : Frame) : List Nat :=
  WriteVarInt f.typ ++ WriteVarInt f.val.length ++ f.val

/-- The serialized form of a sequence of wire records. -/
def encodeFrames (fs : List Frame) : List Nat :=
  (fs.map encodeFrame).flatten

/-- The wire record a stream record encodes to. -/
def recFrame (r : Record) : Frame := ⟨r.typ, r.value⟩

/-! ### VarInt codec lemmas -/

theorem length_beBytes (k n : Nat) : (beBytes k n).length = k := by
  induction k generalizing n with
  | zero => rfl
  | succ k ih => simp [beBytes, ih]

theorem beCombine_beBytes (k n : Nat) :
    beCombine (beBytes k n) = n % 2 ^ (8 * k) := by
  induction k generalizing n with
  | zero => simp [beBytes, beCombine, Nat.mod_one]
  | succ k ih =>
    have h : 2 ^ (8 * (k + 1)) = 2 ^ (8 * k) * 2 ^ 8 := by ring
    rw [beBytes, beCombine, length_beBytes, ih, h, Nat.mod_mul]
    ring_nf

/-- Reading back a multi-byte varint: discriminant byte followed by the
payload of the width the discriminant selects. -/
theorem ReadVarInt_ext {b : Nat} (hb : ¬b < 0xfd) (k : Nat)
    (hk : (if b = (0xfd : Nat) then 2 else if b = (0xfe : Nat) then 4 else 8) = k)
    {pay : List Nat} (hlen : pay.length = k) (rest : List Nat) :
    ReadVarInt (b :: (pay ++ rest)) = .ok (beCombine pay, rest) := by
  unfold ReadVarInt readExt
  simp only [hb, if_false, hk]
  rw [if_neg (by simp [hlen]), List.take_left' hlen, List.drop_left' hlen]

theorem ReadVarInt_WriteVarInt (n : Nat) (hn : n < 2 ^ 64) (rest : List Nat) :
    ReadVarInt (WriteVarInt n ++ rest) = .ok (n, rest) := by
  unfold WriteVarInt
  by_cases h1 : n < 0xfd
  · simp [h1, ReadVarInt]
  · by_cases h2 : n < 0x10000
    · simp only [h1, h2, if_false, if_true, List.cons_append]
      rw [ReadVarInt_ext (by norm_num) 2 (by norm_num)
        (length_beBytes 2 n) rest, beCombine_beBytes]
      have : n % 2 ^ (8 * 2) = n := Nat.mod_eq_of_lt (by omega)
      rw [this]
    · by_cases h3 : n < 0x100000000
      · simp only [h1, h2, h3, if_false, if_true, List.cons_append]
        rw [ReadVarInt_ext (by norm_num) 4 (by norm_num)
          (length_beBytes 4 n) rest, beCombine_beBytes]
        have : n % 2 ^ (8 * 4) = n := Nat.mod_eq_of_lt (by omega)
        rw [this]
      · simp only [h1, h2, h3, if_false, List.cons_append]
        rw [ReadVarInt_ext (by norm_num) 8 (by norm_num)
          (length_beBytes 8 n) rest, beCombine_beBytes]
        have : n % 2 ^ (8 * 8) = n := Nat.mod_eq_of_lt (by omega)
        rw [this]

theorem WriteVarInt_length_pos (n : Nat) : 0 < (WriteVarInt n).length := by
  unfold WriteVarInt
  split
  · simp
  · split
    · simp
    · split <;> simp

theorem readExt_ok_rest {k : Nat} {rest r : List Nat} {v : Nat}
    (h : readExt k rest = .ok (v, r)) : r = rest.drop k := by
  unfold readExt at h
  split at h
  · exact Except.noConfusion h
  · injection h with h'
    injection h' with h1 h2
    exact h2.symm

theorem ReadVarInt_shrink {data rest : List Nat} {v : Nat}
    (h : ReadVarInt data = .ok (v, rest)) : rest.length < data.length := by
  match data with
  | [] => simp [ReadVarInt] at h
  | b :: tl =>
    unfold ReadVarInt at h
    by_cases hb : b < 0xfd
    · simp [hb] at h
      obtain ⟨-, h⟩ := h
      subst h
      simp
    · simp only [hb, if_false] at h
      rw [readExt_ok_rest h]
      simp only [List.length_cons, List.length_drop]
      omega

/-! ### getRecord lemmas -/

theorem getRecordGo_idx_ge (t : Nat) (l : List Record) (idx : Nat) :
    idx ≤ (getRecordGo t l idx).2.1 := by
  induction l generalizing idx with
  | nil => simp [getRecordGo]
  | cons r rest ih =>
    by_cases heq : r.typ = t
    · simp [getRecordGo, heq]
    · by_cases hlt : r.typ < t
      · have := ih (idx + 1)
        simp only [getRecordGo, heq, if_false, hlt, if_true]
        omega
      · simp [getRecordGo, heq, hlt]

theorem getRecordGo_idx_le (t : Nat) (l : List Record) (idx : Nat) :
    (getRecordGo t l idx).2.1 ≤ idx + l.length := by
  induction l generalizing idx with
  | nil => simp [getRecordGo]
  | cons r rest ih =>
    by_cases heq : r.typ = t
    · simp [getRecordGo, heq]
    · by_cases hlt : r.typ < t
      · have := ih (idx + 1)
        simp only [getRecordGo, heq, if_false, hlt, if_true, List.length_cons]
        omega
      · simp [getRecordGo, heq, hlt]

theorem getRecordGo_found_mem {t : Nat} {l : List Record} {idx : Nat}
    (h : (getRecordGo t l idx).2.2 = true) : t ∈ l.map Record.typ := by
  induction l generalizing idx with
  | nil => simp [getRecordGo] at h
  | cons r rest ih =>
    by_cases heq : r.typ = t
    · simp [heq]
    · by_cases hlt : r.typ < t
      · simp only [getRecordGo, heq, if_false, hlt, if_true] at h
        exact List.mem_cons_of_mem _ (ih h)
      · simp [getRecordGo, heq, hlt] at h

theorem getRecordGo_mem_found {t : Nat} {l : List Record} {idx : Nat}
    (hs : List.Pairwise (· < ·) (l.map Record.typ))
    (hm : t ∈ l.map Record.typ) : (getRecordGo t l idx).2.2 = true := by
  induction l generalizing idx with
  | nil => simp at hm
  | cons r rest ih =>
    simp only [List.map_cons, List.pairwise_cons] at hs
    by_cases heq : r.typ = t
    · simp [getRecordGo, heq]
    · by_cases hlt : r.typ < t
      · simp only [getRecordGo, heq, if_false, hlt, if_true]
        refine ih hs.2 ?_
        simp only [List.map_cons, List.mem_cons] at hm
        rcases hm with h | h
        · exact absurd h.symm heq
        · exact h
      · exfalso
        simp only [List.map_cons, List.mem_cons] at hm
        rcases hm with h | h
        · exact heq h.symm
        · have := hs.1 t h
          omega

theorem getRecordGo_found_split {t : Nat} {l : List Record} {idx : Nat}
    (h : (getRecordGo t l idx).2.2 = true) :
    ∃ j, ∃ hj : j < l.length,
      getRecordGo t l idx = (l.get ⟨j, hj⟩, idx + j + 1, true) ∧
      (l.get ⟨j, hj⟩).typ = t ∧ ∀ x ∈ l.take j, x.typ < t := by
  induction l generalizing idx with
  | nil => simp [getRecordGo] at h
  | cons r rest ih =>
    by_cases heq : r.typ = t
    · exact ⟨0, by simp, by simp [getRecordGo, heq], by simpa using heq,
        by simp⟩
    · by_cases hlt : r.typ < t
      · simp only [getRecordGo, heq, if_false, hlt, if_true] at h
        obtain ⟨j, hj, hres, hty, hpre⟩ := ih h
        refine ⟨j + 1, by simpa using hj, ?_, by simpa using hty, ?_⟩
        · simp only [getRecordGo, heq, if_false, hlt, if_true]
          rw [hres]
          simp only [List.get_cons_succ, Prod.mk.injEq, true_and, and_true]
          omega
        · intro x hx
          simp only [List.take_succ_cons, List.mem_cons] at hx
          rcases hx with h | h
          · subst h; exact hlt
          · exact hpre x h
      · simp [getRecordGo, heq, hlt] at h

theorem getRecordGo_unfound_split {t : Nat} {l : List Record} {idx : Nat}
    (h : (getRecordGo t l idx).2.2 = false) :
    ∃ j, j ≤ l.length ∧ (getRecordGo t l idx).2.1 = idx + j ∧
      ∀ x ∈ l.take j, x.typ < t := by
  induction l generalizing idx with
  | nil => exact ⟨0, by simp, by simp [getRecordGo], by simp⟩
  | cons r rest ih =>
    by_cases heq : r.typ = t
    · simp [getRecordGo, heq] at h
    · by_cases hlt : r.typ < t
      · simp only [getRecordGo, heq, if_false, hlt, if_true] at h ⊢
        obtain ⟨j, hj, hres, hpre⟩ := ih h
        refine ⟨j + 1, by simpa using hj, by rw [hres]; omega, ?_⟩
        intro x hx
        simp only [List.take_succ_cons, List.mem_cons] at hx
        rcases hx with h | h
        · subst h; exact hlt
        · exact hpre x h
      · exact ⟨0, by simp, by simp [getRecordGo, heq, hlt], by simp⟩

/-- Elements the getRecord walk moved past (strictly before the returned
resume index) all have type at most the target type. -/
theorem getRecordGo_walked (t : Nat) (l : List Record) (idx : Nat) :
    ∀ x ∈ l.take ((getRecordGo t l idx).2.1 - idx), x.typ ≤ t := by
  by_cases h : (getRecordGo t l idx).2.2 = true
  · obtain ⟨j, hj, hres, hty, hpre⟩ := getRecordGo_found_split h
    rw [hres]
    simp only [Nat.add_sub_cancel_left, Nat.add_assoc]
    intro x hx
    rcases List.mem_take_iff_getElem.mp hx with ⟨i, hi, hxe⟩
    by_cases hij : i < j
    · have : x ∈ l.take j := by
        subst hxe
        apply List.mem_take_iff_getElem.mpr
        exact ⟨i, by simp; omega, by simp⟩
      exact le_of_lt (hpre x this)
    · have hij' : i = j := by omega
      subst hij' hxe
      simp only [List.get_eq_getElem] at hty
      omega
  · have h' : (getRecordGo t l idx).2.2 = false := by
      simpa using h
    obtain ⟨j, hj, hres, hpre⟩ := getRecordGo_unfound_split h'
    rw [hres]
    simp only [Nat.add_sub_cancel_left]
    intro x hx
    exact le_of_lt (hpre x hx)

/-- Setting a list entry to the value it already holds is the identity. -/
theorem list_set_self {α : Type} {l : List α} (i : Nat) {x : α}
    (hi : i < l.length) (hx : l.get ⟨i, hi⟩ = x) : l.set i x = l := by
  induction l generalizing i with
  | nil => simp at hi
  | cons a tl ih =>
    cases i with
    | zero => simpa using hx.symm
    | succ i =>
      simp only [List.set_cons_succ, List.cons.injEq, true_and]
      exact ih i (by simpa using hi) (by simpa using hx)

/-! ### decodeStep case lemmas -/

theorem decodeStep_cont_inv {st : DecState} {data : List Nat} {st' : DecState}
    {rest : List Nat} (h : decodeStep st data = .cont st' rest) :
    rest.length < data.length ∧ st.recordIdx ≤ st'.recordIdx ∧
    st'.recs.map Record.typ = st.recs.map Record.typ ∧
    st'.parsed.isSome = st.parsed.isSome := by
  unfold decodeStep at h
  split at h
  · split at h <;> exact StepRes.noConfusion h
  · exact StepRes.noConfusion h
  · rename_i typ data1 hread
    split at h
    · exact StepRes.noConfusion h
    · split at h
      · exact StepRes.noConfusion h
      · exact StepRes.noConfusion h
      · rename_i len data2 hread2
        split at h
        · exact StepRes.noConfusion h
        · have hd1 : data1.length < data.length := ReadVarInt_shrink hread
          have hd2 : data2.length < data1.length := ReadVarInt_shrink hread2
          split at h
          · rename_i rec0 newIdx hget
            split at h
            · rename_i hlen
              injection h with h1 h2
              subst h1 h2
              have hfound :
                  (getRecordGo typ (st.recs.drop st.recordIdx)
                    st.recordIdx).2.2 = true := by rw [hget]
              obtain ⟨j, hj, hres, hty, -⟩ := getRecordGo_found_split hfound
              have hcmp := hget.symm.trans hres
              simp only [Prod.mk.injEq] at hcmp
              obtain ⟨-, hnew, -⟩ := hcmp
              have hjlen : st.recordIdx + j < st.recs.length := by
                have := hj
                simp only [List.length_drop] at this
                omega
              refine ⟨?_, ?_, ?_, ?_⟩
              · have : (data2.drop len).length ≤ data2.length := by
                  simp [List.length_drop]
                omega
              · have := getRecordGo_idx_ge typ (st.recs.drop st.recordIdx)
                  st.recordIdx
                simp only [hget] at this
                dsimp only
                omega
              · simp only [List.map_set]
                rw [hnew]
                simp only [Nat.add_sub_cancel]
                apply list_set_self (st.recordIdx + j) (by simpa using hjlen)
                simp only [List.get_eq_getElem, List.getElem_drop] at hty
                simp only [List.get_eq_getElem, List.getElem_map]
                exact hty
              · simp
            · exact StepRes.noConfusion h
          · rename_i rec0 newIdx hget
            split at h
            · exact StepRes.noConfusion h
            · split at h
              · rename_i hlen
                injection h with h1 h2
                subst h1 h2
                refine ⟨?_, ?_, rfl, by simp⟩
                · have : (data2.drop len).length ≤ data2.length := by
                    simp [List.length_drop]
                  omega
                · have := getRecordGo_idx_ge typ (st.recs.drop st.recordIdx)
                    st.recordIdx
                  simp only [hget] at this
                  dsimp only
                  omega
              · exact StepRes.noConfusion h

theorem readExt_error {k : Nat} {rest : List Nat} {e : Err}
    (h : readExt k rest = .error e) : e = .unexpectedEOF := by
  unfold readExt at h
  split at h
  · injection h with h'
    exact h'.symm
  · exact Except.noConfusion h

theorem ReadVarInt_error_cases {data : List Nat} {e : Err}
    (h : ReadVarInt data = .error e) : e = .eof ∨ e = .unexpectedEOF := by
  cases data with
  | nil =>
    simp only [ReadVarInt] at h
    injection h with h'
    exact Or.inl h'.symm
  | cons b tl =>
    simp only [ReadVarInt] at h
    split at h
    · exact Except.noConfusion h
    · exact Or.inr (readExt_error h)

theorem decodeStep_nil (st : DecState) :
    decodeStep st [] =
      .done ⟨st.recs, st.parsed, st.firstFail.map .unknownRequiredType⟩ := by
  cases h : st.firstFail <;> simp [decodeStep, ReadVarInt, h]

theorem decodeStep_done_recs {st : DecState} {data : List Nat}
    {res : DecResult} (h : decodeStep st data = .done res) :
    res.recs = st.recs := by
  unfold decodeStep at h
  repeat' split at h
  all_goals
    first
      | exact StepRes.noConfusion h
      | (injection h with h'; subst h'; rfl)

theorem decodeStep_done_out {st : DecState} {data : List Nat}
    {res : DecResult} (h : decodeStep st data = .done res)
    (htr : st.parsed.isSome = true) :
    (res.parsed = st.parsed ∧
      (res.err = none ∨ ∃ t, res.err = some (.unknownRequiredType t))) ∨
    (res.parsed = none ∧ ∃ e, res.err = some e ∧
      ∀ t, e ≠ .unknownRequiredType t) := by
  unfold decodeStep at h
  split at h
  · split at h
    · injection h with h'
      subst h'
      exact Or.inl ⟨rfl, Or.inl rfl⟩
    · rename_i t hff
      injection h with h'
      subst h'
      exact Or.inl ⟨rfl, Or.inr ⟨t, rfl⟩⟩
  · rename_i e hne heq
    injection h with h'
    subst h'
    refine Or.inr ⟨rfl, e, rfl, ?_⟩
    intro t ht
    subst ht
    rcases ReadVarInt_error_cases heq with h | h <;> exact Err.noConfusion h
  · rename_i typ data1 hread
    split at h
    · injection h with h'
      subst h'
      exact Or.inr ⟨rfl, _, rfl, by intro t h; exact Err.noConfusion h⟩
    · split at h
      · injection h with h'
        subst h'
        exact Or.inr ⟨rfl, _, rfl, by intro t h; exact Err.noConfusion h⟩
      · rename_i e hne heq
        injection h with h'
        subst h'
        refine Or.inr ⟨rfl, e, rfl, ?_⟩
        intro t ht
        subst ht
        rcases ReadVarInt_error_cases heq with h | h <;> exact Err.noConfusion h
      · rename_i len data2 hread2
        split at h
        · injection h with h'
          subst h'
          exact Or.inr ⟨rfl, _, rfl, by intro t h; exact Err.noConfusion h⟩
        · split at h
          · split at h
            · exact StepRes.noConfusion h
            · injection h with h'
              subst h'
              exact Or.inr ⟨rfl, _, rfl, by intro t h; exact Err.noConfusion h⟩
          · split at h
            · rename_i hcond
              simp [hcond.2] at htr
            · split at h
              · exact StepRes.noConfusion h
              · injection h with h'
                subst h'
                exact Or.inr ⟨rfl, _, rfl, by intro t h; exact Err.noConfusion h⟩

/-! ### decodeLoop lemmas -/

theorem decodeLoop_fuel_congr :
    ∀ (f1 : Nat) {data : List Nat} (f2 : Nat) (st : DecState),
      data.length < f1 → data.length < f2 →
      decodeLoop f1 st data = decodeLoop f2 st data := by
  intro f1
  induction f1 with
  | zero => intro data f2 st h1 h2; omega
  | succ f1 ih =>
    intro data f2 st h1 h2
    cases f2 with
    | zero => omega
    | succ f2 =>
      simp only [decodeLoop]
      cases h : decodeStep st data with
      | done res => rfl
      | cont st' rest =>
        have hlt := (decodeStep_cont_inv h).1
        exact ih f2 st' (by omega) (by omega)

theorem decodeLoop_recs_types :
    ∀ (fuel : Nat) (st : DecState) (data : List Nat),
      (decodeLoop fuel st data).recs.map Record.typ =
        st.recs.map Record.typ := by
  intro fuel
  induction fuel with
  | zero => intro st data; rfl
  | succ fuel ih =>
    intro st data
    simp only [decodeLoop]
    cases h : decodeStep st data with
    | done res => rw [decodeStep_done_recs h]
    | cont st' rest =>
      rw [ih st' rest]
      exact (decodeStep_cont_inv h).2.2.1

/-- In tracked mode, the loop result exposes the type set exactly on success
or on the deferred unknown-required-type failure; every other failure
carries a nil type set. -/
theorem decodeLoop_parsed_iff :
    ∀ (fuel : Nat) (st : DecState) (data : List Nat),
      st.parsed.isSome = true →
      ((decodeLoop fuel st data).parsed.isSome = true ↔
        ((decodeLoop fuel st data).err = none ∨
          ∃ t, (decodeLoop fuel st data).err =
            some (.unknownRequiredType t))) := by
  intro fuel
  induction fuel with
  | zero =>
    intro st data htr
    simp [decodeLoop]
  | succ fuel ih =>
    intro st data htr
    simp only [decodeLoop]
    cases h : decodeStep st data with
    | done res =>
      rcases decodeStep_done_out h htr with ⟨hp, herr⟩ | ⟨hp, e, he, hne⟩
      · rw [hp]
        simp only [htr, true_iff]
        exact herr
      · rw [hp, he]
        simp only [Option.isSome_none]
        constructor
        · intro hfalse; exact absurd hfalse (by simp)
        · rintro (hc | ⟨t, hc⟩)
          · exact Option.noConfusion hc
          · injection hc with hc'
            exact absurd hc' (hne t)
    | cont st' rest =>
      exact ih st' rest (by rw [(decodeStep_cont_inv h).2.2.2, htr])

/-! ### One decode-loop iteration over a complete wire record -/

/-- The state update one loop iteration applies after processing a wire
record that neither terminates nor fails the call (the cont branches of
`decodeStep`). -/
def stepSt (st : DecState) (f : Frame) : DecState :=
  match getRecordGo f.typ (st.recs.drop st.recordIdx) st.recordIdx with
  | (_, newIdx, true) =>
    { min := (f.typ + 1) % 2 ^ 64
      firstFail := st.firstFail
      recordIdx := newIdx
      overflow := st.overflow || (f.typ == maxUint64)
      parsed := st.parsed.map (· ++ [f.typ])
      recs := st.recs.set (newIdx - 1) ⟨f.typ, f.val⟩ }
  | (_, newIdx, false) =>
    { min := (f.typ + 1) % 2 ^ 64
      firstFail :=
        if f.typ % 2 = 0 then some (st.firstFail.getD f.typ) else st.firstFail
      recordIdx := newIdx
      overflow := st.overflow || (f.typ == maxUint64)
      parsed := st.parsed.map (· ++ [f.typ])
      recs := st.recs }

/-- Folding the per-record state update over a sequence of wire records. -/
def walkSt (st : DecState) (fs : List Frame) : DecState := fs.foldl stepSt st

theorem decodeStep_frame (st : DecState) (f : Frame) (rest : List Nat)
    (hov : st.overflow = false) (hmin : st.min ≤ f.typ)
    (ht : f.typ < 2 ^ 64) (hlen : f.val.length ≤ MaxRecordSize)
    (hmode : ¬((getRecordGo f.typ (st.recs.drop st.recordIdx)
        st.recordIdx).2.2 = false ∧ f.typ % 2 = 0 ∧ st.parsed = none)) :
    decodeStep st (encodeFrame f ++ rest) = .cont (stepSt st f) rest := by
  unfold decodeStep encodeFrame stepSt
  rw [List.append_assoc, List.append_assoc,
    ReadVarInt_WriteVarInt f.typ ht]
  dsimp only
  have h1 : ¬(st.overflow = true ∨ f.typ < st.min) := by
    rw [hov]
    simp only [Bool.false_eq_true, false_or]
    omega
  rw [if_neg h1, ReadVarInt_WriteVarInt f.val.length
    (by simp only [MaxRecordSize] at hlen; omega)]
  dsimp only
  have h2 : ¬(f.val.length > MaxRecordSize) := by omega
  rw [if_neg h2]
  rcases hget : getRecordGo f.typ (st.recs.drop st.recordIdx) st.recordIdx
    with ⟨rec0, newIdx, found⟩
  cases found with
  | true =>
    dsimp only
    rw [if_pos (by simp), List.take_left, List.drop_left]
  | false =>
    dsimp only
    rw [if_neg (fun hc => hmode ⟨by rw [hget], hc.1, hc.2⟩)]
    rw [if_pos (by simp), List.drop_left]

theorem decodeStep_notCanonical {st : DecState} {t : Nat} (junk : List Nat)
    (ht : t < 2 ^ 64) (hviol : st.overflow = true ∨ t < st.min) :
    decodeStep st (WriteVarInt t ++ junk) =
      .done ⟨st.recs, none, some .streamNotCanonical⟩ := by
  unfold decodeStep
  rw [ReadVarInt_WriteVarInt t ht]
  dsimp only
  rw [if_pos hviol]

theorem decodeStep_tooLarge {st : DecState} {t len : Nat} (junk : List Nat)
    (ht : t < 2 ^ 64) (hlen : len < 2 ^ 64)
    (hok : ¬(st.overflow = true ∨ t < st.min)) (hbig : len > MaxRecordSize) :
    decodeStep st (WriteVarInt t ++ (WriteVarInt len ++ junk)) =
      .done ⟨st.recs, none, some .recordTooLarge⟩ := by
  unfold decodeStep
  rw [ReadVarInt_WriteVarInt t ht]
  dsimp only
  rw [if_neg hok, ReadVarInt_WriteVarInt len hlen]
  dsimp only
  rw [if_pos hbig]

theorem decodeStep_unknownEven {st : DecState} {t len : Nat} (junk : List Nat)
    (ht : t < 2 ^ 64) (hok : ¬(st.overflow = true ∨ t < st.min))
    (hsmall : len ≤ MaxRecordSize)
    (hunf : (getRecordGo t (st.recs.drop st.recordIdx)
      st.recordIdx).2.2 = false)
    (heven : t % 2 = 0) (huntr : st.parsed = none) :
    decodeStep st (WriteVarInt t ++ (WriteVarInt len ++ junk)) =
      .done ⟨st.recs, none, some (.unknownRequiredType t)⟩ := by
  unfold decodeStep
  rw [ReadVarInt_WriteVarInt t ht]
  dsimp only
  rw [if_neg hok, ReadVarInt_WriteVarInt len
    (by simp only [MaxRecordSize] at hsmall; omega)]
  dsimp only
  rw [if_neg (by omega)]
  rcases hget : getRecordGo t (st.recs.drop st.recordIdx) st.recordIdx
    with ⟨rec0, newIdx, found⟩
  rw [hget] at hunf
  subst hunf
  dsimp only
  rw [if_pos ⟨heven, huntr⟩]

/-! ### Ascending type sequences and the decode-loop invariant -/

/-- Strictly ascending sequence of types bounded below by `lo` (with the
plain successor: a sequence cannot continue past type `2^64 - 1` when all
types are in range). -/
def AscFrom (lo : Nat) : List Nat → Prop
  | [] => True
  | t :: ts => lo ≤ t ∧ AscFrom (t + 1) ts

instance instDecAscFrom : (lo : Nat) → (l : List Nat) → Decidable (AscFrom lo l)
  | _, [] => isTrue trivial
  | lo, t :: ts =>
    match Nat.decLe lo t, instDecAscFrom (t + 1) ts with
    | isTrue h1, isTrue h2 => isTrue ⟨h1, h2⟩
    | isFalse h1, _ => isFalse (fun hc => h1 hc.1)
    | _, isFalse h2 => isFalse (fun hc => h2 hc.2)

theorem ascFrom_iff (lo : Nat) (l : List Nat) :
    AscFrom lo l ↔ ((∀ x ∈ l, lo ≤ x) ∧ List.Pairwise (· < ·) l) := by
  induction l generalizing lo with
  | nil => simp [AscFrom]
  | cons t ts ih =>
    simp only [AscFrom, ih, List.pairwise_cons, List.mem_cons]
    constructor
    · rintro ⟨h1, h2, h3⟩
      refine ⟨?_, ?_, h3⟩
      · rintro x (rfl | hx)
        · exact h1
        · exact le_trans (by omega) (h2 x hx)
      · intro x hx
        have := h2 x hx
        omega
    · rintro ⟨h1, h2, h3⟩
      refine ⟨h1 t (Or.inl rfl), ?_, h3⟩
      intro x hx
      have := h2 x hx
      omega

/-- Boolean predicate: the wire record's type is even and matches no record
known to the stream. -/
def unknownEvenB (recs : List Record) (f : Frame) : Bool :=
  f.typ % 2 == 0 && !((recs.map Record.typ).contains f.typ)

theorem unknownEvenB_iff (recs : List Record) (f : Frame) :
    unknownEvenB recs f = true ↔
      (f.typ % 2 = 0 ∧ f.typ ∉ recs.map Record.typ) := by
  simp [unknownEvenB]

/-- Invariant the decode loop maintains over its state: no overflow yet,
cursor in bounds, known records sorted by type, and every record the cursor
moved past has type below the running minimum. -/
structure Inv (st : DecState) : Prop where
  noOv : st.overflow = false
  idxLe : st.recordIdx ≤ st.recs.length
  sorted : List.Pairwise (· < ·) (st.recs.map Record.typ)
  before : ∀ x ∈ (st.recs.map Record.typ).take st.recordIdx, x < st.min

/-- Under the invariant, the forward-only search from the current cursor
finds a type exactly when the stream knows that type at all. -/
theorem found_iff_mem {st : DecState} (inv : Inv st) {t : Nat}
    (hmin : st.min ≤ t) :
    (getRecordGo t (st.recs.drop st.recordIdx) st.recordIdx).2.2 = true ↔
      t ∈ st.recs.map Record.typ := by
  constructor
  · intro h
    have hm := getRecordGo_found_mem h
    rcases List.mem_map.mp hm with ⟨r, hr, hrt⟩
    exact List.mem_map.mpr ⟨r, List.mem_of_mem_drop hr, hrt⟩
  · intro hm
    apply getRecordGo_mem_found
    · have : (st.recs.drop st.recordIdx).map Record.typ =
          (st.recs.map Record.typ).drop st.recordIdx := List.map_drop ..
      rw [this]
      exact inv.sorted.sublist (List.drop_sublist _ _)
    · have hsplit := List.take_append_drop st.recordIdx
        (st.recs.map Record.typ)
      have : (st.recs.drop st.recordIdx).map Record.typ =
          (st.recs.map Record.typ).drop st.recordIdx := List.map_drop ..
      rw [this]
      rcases (List.mem_append.mp (by rw [hsplit]; exact hm)) with h | h
      · exact absurd hmin (by have := inv.before t h; omega)
      · exact h

/-! ### stepSt projections and invariant preservation -/

theorem stepSt_min (st : DecState) (f : Frame) :
    (stepSt st f).min = (f.typ + 1) % 2 ^ 64 := by
  unfold stepSt
  rcases getRecordGo f.typ (st.recs.drop st.recordIdx) st.recordIdx
    with ⟨r, i, found⟩
  cases found <;> rfl

theorem stepSt_overflow (st : DecState) (f : Frame) :
    (stepSt st f).overflow = (st.overflow || (f.typ == maxUint64)) := by
  unfold stepSt
  rcases getRecordGo f.typ (st.recs.drop st.recordIdx) st.recordIdx
    with ⟨r, i, found⟩
  cases found <;> rfl

theorem stepSt_parsed (st : DecState) (f : Frame) :
    (stepSt st f).parsed = st.parsed.map (· ++ [f.typ]) := by
  unfold stepSt
  rcases getRecordGo f.typ (st.recs.drop st.recordIdx) st.recordIdx
    with ⟨r, i, found⟩
  cases found <;> rfl

/-- Overwriting the record the forward search matched keeps the type list
of the known records unchanged (the new record carries the matched type). -/
theorem recs_set_found_types {recs : List Record} {i t : Nat} (v : List Nat)
    (hfound : (getRecordGo t (recs.drop i) i).2.2 = true) (hi : i ≤ recs.length) :
    (recs.set ((getRecordGo t (recs.drop i) i).2.1 - 1)
      ⟨t, v⟩).map Record.typ = recs.map Record.typ := by
  obtain ⟨j, hj, hres, hty, -⟩ := getRecordGo_found_split hfound
  rw [hres]
  dsimp only
  have hjlen : i + j < recs.length := by
    have := hj
    simp only [List.length_drop] at this
    omega
  simp only [List.map_set, Nat.add_sub_cancel]
  apply list_set_self (i + j) (by simpa using hjlen)
  simp only [List.get_eq_getElem, List.getElem_drop] at hty
  simp only [List.get_eq_getElem, List.getElem_map]
  exact hty

theorem stepSt_recs_types {st : DecState} (f : Frame)
    (hi : st.recordIdx ≤ st.recs.length) :
    (stepSt st f).recs.map Record.typ = st.recs.map Record.typ := by
  unfold stepSt
  rcases hget : getRecordGo f.typ (st.recs.drop st.recordIdx) st.recordIdx
    with ⟨r, i, found⟩
  cases found with
  | true =>
    dsimp only
    have hfound : (getRecordGo f.typ (st.recs.drop st.recordIdx)
        st.recordIdx).2.2 = true := by rw [hget]
    have := recs_set_found_types f.val hfound hi
    rw [hget] at this
    exact this
  | false => rfl

theorem stepSt_recordIdx_ge (st : DecState) (f : Frame) :
    st.recordIdx ≤ (stepSt st f).recordIdx := by
  unfold stepSt
  rcases hget : getRecordGo f.typ (st.recs.drop st.recordIdx) st.recordIdx
    with ⟨r, i, found⟩
  have := getRecordGo_idx_ge f.typ (st.recs.drop st.recordIdx) st.recordIdx
  rw [hget] at this
  cases found <;> exact this

theorem stepSt_recordIdx_le (st : DecState) (f : Frame)
    (hi : st.recordIdx ≤ st.recs.length) :
    (stepSt st f).recordIdx ≤ st.recs.length := by
  unfold stepSt
  rcases hget : getRecordGo f.typ (st.recs.drop st.recordIdx) st.recordIdx
    with ⟨r, i, found⟩
  have := getRecordGo_idx_le f.typ (st.recs.drop st.recordIdx) st.recordIdx
  rw [hget] at this
  simp only [List.length_drop] at this
  cases found
  · dsimp only
    omega
  · dsimp only
    omega

theorem stepSt_firstFail {st : DecState} {f : Frame} (inv : Inv st)
    (hmin : st.min ≤ f.typ) :
    (stepSt st f).firstFail =
      if unknownEvenB st.recs f then some (st.firstFail.getD f.typ)
      else st.firstFail := by
  unfold stepSt
  rcases hget : getRecordGo f.typ (st.recs.drop st.recordIdx) st.recordIdx
    with ⟨r, i, found⟩
  have hiff := found_iff_mem inv hmin
  rw [hget] at hiff
  cases found with
  | true =>
    dsimp only
    have hmem : f.typ ∈ st.recs.map Record.typ := hiff.mp rfl
    rw [if_neg]
    intro hc
    exact ((unknownEvenB_iff _ _).mp hc).2 hmem
  | false =>
    dsimp only
    have hnmem : f.typ ∉ st.recs.map Record.typ := by
      intro hc
      exact Bool.false_ne_true (hiff.mpr hc)
    by_cases hev : f.typ % 2 = 0
    · rw [if_pos hev, if_pos ((unknownEvenB_iff _ _).mpr ⟨hev, hnmem⟩)]
    · rw [if_neg hev, if_neg]
      intro hc
      exact hev ((unknownEvenB_iff _ _).mp hc).1

theorem inv_stepSt {st : DecState} {f : Frame} (inv : Inv st)
    (hmin : st.min ≤ f.typ) (hlt : f.typ < maxUint64) :
    Inv (stepSt st f) ∧ (stepSt st f).min = f.typ + 1 := by
  have hminEq : (stepSt st f).min = f.typ + 1 := by
    rw [stepSt_min]
    apply Nat.mod_eq_of_lt
    simp only [maxUint64] at hlt
    omega
  refine ⟨⟨?_, ?_, ?_, ?_⟩, hminEq⟩
  · rw [stepSt_overflow, inv.noOv]
    simp only [Bool.false_or, beq_eq_false_iff_ne, ne_eq]
    exact Nat.ne_of_lt hlt
  · have h1 := stepSt_recordIdx_le st f inv.idxLe
    have h2 : (stepSt st f).recs.length = st.recs.length := by
      have := congrArg List.length (stepSt_recs_types f inv.idxLe)
      simpa using this
    omega
  · rw [stepSt_recs_types f inv.idxLe]
    exact inv.sorted
  · rw [stepSt_recs_types f inv.idxLe, hminEq]
    intro x hx
    -- the elements taken are the old prefix plus the records the search
    -- walked past; both have type at most f.typ
    have hidx : (stepSt st f).recordIdx =
        (getRecordGo f.typ (st.recs.drop st.recordIdx) st.recordIdx).2.1 := by
      unfold stepSt
      rcases hget : getRecordGo f.typ (st.recs.drop st.recordIdx) st.recordIdx
        with ⟨r, i, found⟩
      cases found <;> rfl
    rw [hidx] at hx
    set newIdx := (getRecordGo f.typ (st.recs.drop st.recordIdx)
      st.recordIdx).2.1 with hni
    have hge : st.recordIdx ≤ newIdx :=
      getRecordGo_idx_ge f.typ (st.recs.drop st.recordIdx) st.recordIdx
    rw [show newIdx = st.recordIdx + (newIdx - st.recordIdx) by omega,
      List.take_add] at hx
    rcases List.mem_append.mp hx with h | h
    · have := inv.before x h
      omega
    · rw [← List.map_drop, ← List.map_take] at h
      rcases List.mem_map.mp h with ⟨rr, hrr, hrt⟩
      have := getRecordGo_walked f.typ (st.recs.drop st.recordIdx)
        st.recordIdx rr hrr
      omega


/-! ### Walking the loop over a sequence of well-formed wire records -/

theorem decodeLoop_succ (fuel : Nat) (st : DecState) (data : List Nat) :
    decodeLoop (fuel + 1) st data =
      match decodeStep st data with
      | .done res => res
      | .cont st' rest => decodeLoop fuel st' rest := rfl

theorem encodeFrames_cons (f : Frame) (fs : List Frame) :
    encodeFrames (f :: fs) = encodeFrame f ++ encodeFrames fs := by
  simp [encodeFrames]

theorem encodeFrame_length_pos (f : Frame) : 0 < (encodeFrame f).length := by
  unfold encodeFrame
  have := WriteVarInt_length_pos f.typ
  simp only [List.length_append]
  omega

theorem walkSt_parsed (fs : List Frame) (st : DecState) :
    (walkSt st fs).parsed = st.parsed.map (· ++ fs.map Frame.typ) := by
  induction fs generalizing st with
  | nil =>
    cases h : st.parsed <;> simp [walkSt, h]
  | cons f fs ih =>
    show (walkSt (stepSt st f) fs).parsed = _
    rw [ih, stepSt_parsed]
    cases h : st.parsed <;> simp [h]

theorem walkSt_append (st : DecState) (a b : List Frame) :
    walkSt st (a ++ b) = walkSt (walkSt st a) b := List.foldl_append ..

/-- Running the decode loop over the encoding of well-formed wire records
followed by further input: the loop consumes the records, arriving at the
folded state, and continues on the remaining input. -/
theorem decodeLoop_walk :
    ∀ (fs : List Frame) (st : DecState) (rest : List Nat),
      Inv st → AscFrom st.min (fs.map Frame.typ) →
      (∀ f ∈ fs, f.typ < 2 ^ 64 ∧ f.val.length ≤ MaxRecordSize) →
      (st.parsed = none →
        ∀ f ∈ fs, f.typ % 2 = 0 → f.typ ∈ st.recs.map Record.typ) →
      decodeLoop ((encodeFrames fs ++ rest).length + 1) st
          (encodeFrames fs ++ rest) =
        decodeLoop (rest.length + 1) (walkSt st fs) rest := by
  intro fs
  induction fs with
  | nil => intro st rest inv hasc hbound hmode; simp [encodeFrames, walkSt]
  | cons f fs ih =>
    intro st rest inv hasc hbound hmode
    have hf := hbound f (List.mem_cons_self f fs)
    have hmin : st.min ≤ f.typ := hasc.1
    have hmode' : ¬((getRecordGo f.typ (st.recs.drop st.recordIdx)
        st.recordIdx).2.2 = false ∧ f.typ % 2 = 0 ∧ st.parsed = none) := by
      rintro ⟨hunf, hev, hpn⟩
      have hmem := hmode hpn f (List.mem_cons_self f fs) hev
      have := (found_iff_mem inv hmin).mpr hmem
      rw [hunf] at this
      exact Bool.false_ne_true this
    rw [encodeFrames_cons, List.append_assoc]
    set rest2 := encodeFrames fs ++ rest with hrest2
    have hstep := decodeStep_frame st f rest2 inv.noOv hmin hf.1 hf.2 hmode'
    rw [decodeLoop_succ, hstep]
    dsimp only
    have hfc : decodeLoop (encodeFrame f ++ rest2).length (stepSt st f) rest2 =
        decodeLoop (rest2.length + 1) (stepSt st f) rest2 := by
      apply decodeLoop_fuel_congr
      · have := encodeFrame_length_pos f
        simp only [List.length_append]
        omega
      · omega
    rw [hfc]
    show decodeLoop (rest2.length + 1) (stepSt st f) rest2 =
      decodeLoop (rest.length + 1) (walkSt (stepSt st f) fs) rest
    cases fs with
    | nil =>
      rw [hrest2]
      simp [encodeFrames, walkSt]
    | cons g gs =>
      have hglt : f.typ < maxUint64 := by
        have h1 : f.typ + 1 ≤ g.typ := hasc.2.1
        have h2 := (hbound g (by simp)).1
        simp only [maxUint64]
        omega
      obtain ⟨inv', hmin'⟩ := inv_stepSt inv hmin hglt
      refine ih (stepSt st f) rest inv' ?_ ?_ ?_
      · rw [hmin']
        exact hasc.2
      · intro x hx
        exact hbound x (List.mem_cons_of_mem f hx)
      · intro hpn x hx hev
        have hpn0 : st.parsed = none := by
          rw [stepSt_parsed] at hpn
          cases h : st.parsed
          · rfl
          · rw [h] at hpn; simp at hpn
        rw [stepSt_recs_types f inv.idxLe]
        exact hmode hpn0 x (List.mem_cons_of_mem f hx) hev


theorem ascFrom_append_left {lo : Nat} {l1 l2 : List Nat}
    (h : AscFrom lo (l1 ++ l2)) : AscFrom lo l1 := by
  induction l1 generalizing lo with
  | nil => trivial
  | cons t ts ih => exact ⟨h.1, ih h.2⟩

theorem walkSt_min_le {t : Nat} :
    ∀ (fs : List Frame) (st : DecState),
      (∀ f ∈ fs, f.typ < maxUint64) →
      AscFrom st.min (fs.map Frame.typ ++ [t]) →
      (walkSt st fs).overflow = st.overflow ∧ (walkSt st fs).min ≤ t := by
  intro fs
  induction fs with
  | nil =>
    intro st hmax hasc
    exact ⟨rfl, hasc.1⟩
  | cons f fs ih =>
    intro st hmax hasc
    have hfmax := hmax f (List.mem_cons_self f fs)
    have hmin' : (stepSt st f).min = f.typ + 1 := by
      rw [stepSt_min]
      apply Nat.mod_eq_of_lt
      simp only [maxUint64] at hfmax
      omega
    have hov' : (stepSt st f).overflow = st.overflow := by
      rw [stepSt_overflow]
      have : (f.typ == maxUint64) = false := by
        simp only [beq_eq_false_iff_ne, ne_eq]
        exact Nat.ne_of_lt hfmax
      rw [this, Bool.or_false]
    have := ih (stepSt st f)
      (fun x hx => hmax x (List.mem_cons_of_mem f hx))
      (by rw [hmin']; exact hasc.2)
    refine ⟨?_, this.2⟩
    show (walkSt (stepSt st f) fs).overflow = st.overflow
    rw [this.1, hov']

theorem walkSt_viol {fs : List Frame} {st : DecState} (hne : fs ≠ [])
    (hbound : ∀ f ∈ fs, f.typ < 2 ^ 64) {t : Nat}
    (hle : t ≤ (fs.getLast hne).typ) :
    (walkSt st fs).overflow = true ∨ t < (walkSt st fs).min := by
  have hsplit := List.dropLast_append_getLast hne
  set g := fs.getLast hne with hg
  have : walkSt st fs = stepSt (walkSt st fs.dropLast) g := by
    conv_lhs => rw [← hsplit]
    rw [walkSt_append]
    rfl
  rw [this]
  by_cases hgm : g.typ = maxUint64
  · left
    rw [stepSt_overflow, hgm]
    simp
  · right
    rw [stepSt_min]
    have hgb : g.typ < 2 ^ 64 := hbound g (List.getLast_mem hne)
    have : (g.typ + 1) % 2 ^ 64 = g.typ + 1 := by
      apply Nat.mod_eq_of_lt
      simp only [maxUint64] at hgm
      omega
    rw [this]
    omega

theorem walkSt_inv :
    ∀ (fs : List Frame) (st : DecState), Inv st →
      AscFrom st.min (fs.map Frame.typ) →
      (∀ f ∈ fs, f.typ < maxUint64) →
      Inv (walkSt st fs) ∧
      (walkSt st fs).recs.map Record.typ = st.recs.map Record.typ ∧
      ((walkSt st fs).parsed = none ↔ st.parsed = none) := by
  intro fs
  induction fs with
  | nil => intro st inv hasc hmax; exact ⟨inv, rfl, Iff.rfl⟩
  | cons f fs ih =>
    intro st inv hasc hmax
    have hfmax := hmax f (List.mem_cons_self f fs)
    obtain ⟨inv', hmin'⟩ := inv_stepSt inv hasc.1 hfmax
    obtain ⟨jinv, jrecs, jparsed⟩ := ih (stepSt st f) inv'
      (by rw [hmin']; exact hasc.2)
      (fun x hx => hmax x (List.mem_cons_of_mem f hx))
    refine ⟨jinv, ?_, ?_⟩
    · show (walkSt (stepSt st f) fs).recs.map Record.typ = _
      rw [jrecs, stepSt_recs_types f inv.idxLe]
    · show ((walkSt (stepSt st f) fs).parsed = none ↔ _)
      rw [jparsed, stepSt_parsed]
      cases h : st.parsed <;> simp [h]

/-- The deferred-failure slot after the walk: an already-recorded first
failure is kept; otherwise the first wire record whose type is even and
unknown to the stream is recorded. -/
theorem walkSt_firstFail :
    ∀ (fs : List Frame) (st : DecState), Inv st →
      AscFrom st.min (fs.map Frame.typ) →
      (∀ f ∈ fs, f.typ < 2 ^ 64) →
      (walkSt st fs).firstFail =
        (match st.firstFail with
          | some t => some t
          | none =>
            ((fs.filter (unknownEvenB st.recs)).head?).map Frame.typ) := by
  intro fs
  induction fs with
  | nil =>
    intro st inv hasc hb
    cases h : st.firstFail <;> simp [walkSt, h]
  | cons f fs ih =>
    intro st inv hasc hb
    show (walkSt (stepSt st f) fs).firstFail = _
    have hsf := stepSt_firstFail inv hasc.1
    cases fs with
    | nil =>
      show (stepSt st f).firstFail = _
      rw [hsf]
      by_cases hu : unknownEvenB st.recs f
      · rw [if_pos hu]
        cases h : st.firstFail <;> simp [h, List.filter_cons, hu]
      · rw [if_neg hu]
        cases h : st.firstFail <;> simp [h, List.filter_cons, hu]
    | cons g gs =>
      have hflt : f.typ < maxUint64 := by
        have h1 : f.typ + 1 ≤ g.typ := hasc.2.1
        have h2 := hb g (by simp)
        simp only [maxUint64]
        omega
      obtain ⟨inv', hmin'⟩ := inv_stepSt inv hasc.1 hflt
      rw [ih (stepSt st f) inv' (by rw [hmin']; exact hasc.2)
        (fun x hx => hb x (List.mem_cons_of_mem f hx))]
      have hrecs : (stepSt st f).recs.map Record.typ =
          st.recs.map Record.typ := stepSt_recs_types f inv.idxLe
      have hfilter : (g :: gs).filter (unknownEvenB (stepSt st f).recs) =
          (g :: gs).filter (unknownEvenB st.recs) := by
        apply List.filter_congr
        intro x _
        unfold unknownEvenB
        rw [hrecs]
      rw [hsf, hfilter]
      by_cases hu : unknownEvenB st.recs f
      · rw [if_pos hu]
        cases h : st.firstFail <;> simp [h, List.filter_cons, hu]
      · rw [if_neg hu]
        cases h : st.firstFail <;> simp [h, List.filter_cons, hu]


/-! ### NewStream validation -/

theorem newStreamRecords_overflow {rs : List Record} (hne : rs ≠ [])
    (lo : Nat) : newStreamRecords rs lo true = .error .streamNotCanonical := by
  cases rs with
  | nil => exact absurd rfl hne
  | cons r rest => simp [newStreamRecords]

theorem newStreamRecords_sound :
    ∀ (rs : List Record) (lo : Nat), (∀ r ∈ rs, r.typ < 2 ^ 64) →
      AscFrom lo (rs.map Record.typ) →
      newStreamRecords rs lo false = .ok rs := by
  intro rs
  induction rs with
  | nil => intro lo hb hasc; rfl
  | cons r rest ih =>
    intro lo hb hasc
    have hrb := hb r (List.mem_cons_self r rest)
    have hlo : lo ≤ r.typ := hasc.1
    unfold newStreamRecords
    rw [if_neg (by simp; omega)]
    by_cases hmax : r.typ = maxUint64
    · have hrest : rest = [] := by
        cases rest with
        | nil => rfl
        | cons g gs =>
          exfalso
          have := hasc.2.1
          have := hb g (by simp)
          simp only [maxUint64] at hmax
          omega
      subst hrest
      rfl
    · have : (false || (r.typ == maxUint64)) = false := by
        simp [hmax]
      rw [this]
      have hmod : (r.typ + 1) % 2 ^ 64 = r.typ + 1 := by
        apply Nat.mod_eq_of_lt
        simp only [maxUint64] at hmax
        omega
      rw [hmod, ih (r.typ + 1)
        (fun x hx => hb x (List.mem_cons_of_mem r hx)) hasc.2]
      rfl

theorem newStreamRecords_complete :
    ∀ (rs : List Record) (lo : Nat), (∀ r ∈ rs, r.typ < 2 ^ 64) →
      ¬ AscFrom lo (rs.map Record.typ) →
      newStreamRecords rs lo false = .error .streamNotCanonical := by
  intro rs
  induction rs with
  | nil => intro lo hb hasc; exact absurd trivial hasc
  | cons r rest ih =>
    intro lo hb hasc
    unfold newStreamRecords
    by_cases hlt : r.typ < lo
    · rw [if_pos (by simp [hlt])]
    · rw [if_neg (by simp; omega)]
      have hasc2 : ¬ AscFrom (r.typ + 1) (rest.map Record.typ) := by
        intro hc
        exact hasc ⟨by omega, hc⟩
      have hrest : rest ≠ [] := by
        intro hc
        subst hc
        exact hasc2 trivial
      by_cases hmax : r.typ = maxUint64
      · have : (false || (r.typ == maxUint64)) = true := by simp [hmax]
        rw [this, newStreamRecords_overflow hrest]
        rfl
      · have : (false || (r.typ == maxUint64)) = false := by simp [hmax]
        rw [this]
        have hrb := hb r (List.mem_cons_self r rest)
        have hmod : (r.typ + 1) % 2 ^ 64 = r.typ + 1 := by
          apply Nat.mod_eq_of_lt
          simp only [maxUint64] at hmax
          omega
        rw [hmod, ih (r.typ + 1)
          (fun x hx => hb x (List.mem_cons_of_mem r hx)) hasc2]
        rfl

/-- C5: construction canonicality.  With every descriptor type in the
`uint64` range, `NewStream` succeeds (returning exactly the given records)
precisely when the types are strictly ascending and duplicate-free; any
duplicate, descending pair, or record following a `math.MaxUint64`-typed
record yields `ErrStreamNotCanonical` (non-ascending lists include every
such case, since no in-range type exceeds the maximum). -/
theorem c5_newStream_canonicality (rs : List Record)
    (hb : ∀ r ∈ rs, r.typ < 2 ^ 64) :
    (List.Pairwise (fun a b => a.typ < b.typ) rs →
      NewStream rs = .ok ⟨rs⟩) ∧
    (¬ List.Pairwise (fun a b => a.typ < b.typ) rs →
      NewStream rs = .error .streamNotCanonical) := by
  have hiff : AscFrom 0 (rs.map Record.typ) ↔
      List.Pairwise (fun a b => a.typ < b.typ) rs := by
    rw [ascFrom_iff]
    simp [List.pairwise_map]
  constructor
  · intro hp
    unfold NewStream
    rw [newStreamRecords_sound rs 0 hb (hiff.mpr hp)]
    rfl
  · intro hp
    unfold NewStream
    rw [newStreamRecords_complete rs 0 hb (fun hc => hp (hiff.mp hc))]
    rfl

/-- Witness for C5 at concrete inputs: an ascending list is accepted
verbatim and a duplicate-type list is rejected. -/
theorem c5_newStream_canonicality_witness :
    (∀ r ∈ [Record.mk 1 [], Record.mk 3 []], r.typ < 2 ^ 64) ∧
    NewStream [Record.mk 1 [], Record.mk 3 []] =
      .ok ⟨[Record.mk 1 [], Record.mk 3 []]⟩ ∧
    NewStream [Record.mk 3 [], Record.mk 3 [7]] =
      .error .streamNotCanonical := by
  refine ⟨by decide, ?_, ?_⟩
  · exact (c5_newStream_canonicality _ (by decide)).1 (by decide)
  · exact (c5_newStream_canonicality _ (by decide)).2 (by decide)


/-! ### C8: the forward-only record cursor -/

/-- C8: the known-record lookup cursor is forward-only.  The resume index
`getRecord` returns never falls below the index it was given; on a sorted
record list the lookup succeeds exactly when some record at or after the
given index has the queried type; and every iteration of the decode loop
passes a cursor at least as large as the previous one to the next
iteration. -/
theorem c8_getRecord_forward_cursor (s : Stream) (t idx : Nat) :
    idx ≤ (s.getRecord t idx).2.1 ∧
    (List.Pairwise (fun a b => a.typ < b.typ) s.records →
      ((s.getRecord t idx).2.2 = true ↔
        ∃ j, idx ≤ j ∧ ∃ hj : j < s.records.length,
          (s.records.get ⟨j, hj⟩).typ = t)) ∧
    (∀ (st : DecState) (data : List Nat) (st' : DecState) (rest : List Nat),
      decodeStep st data = .cont st' rest → st.recordIdx ≤ st'.recordIdx) := by
  refine ⟨getRecordGo_idx_ge t (s.records.drop idx) idx, ?_, ?_⟩
  · intro hs
    constructor
    · intro h
      obtain ⟨j, hj, hres, hty, -⟩ := getRecordGo_found_split h
      have hjl : idx + j < s.records.length := by
        have := hj
        simp only [List.length_drop] at this
        omega
      refine ⟨idx + j, by omega, hjl, ?_⟩
      simp only [List.get_eq_getElem, List.getElem_drop] at hty
      simpa using hty
    · rintro ⟨j, hij, hj, hty⟩
      apply getRecordGo_mem_found
      · have : (s.records.drop idx).map Record.typ =
            (s.records.map Record.typ).drop idx := List.map_drop ..
        rw [this]
        have : List.Pairwise (· < ·) (s.records.map Record.typ) := by
          simpa [List.pairwise_map] using hs
        exact this.sublist (List.drop_sublist _ _)
      · have hjd : j - idx < (s.records.drop idx).length := by
          simp only [List.length_drop]
          omega
        apply List.mem_map.mpr
        refine ⟨(s.records.drop idx).get ⟨j - idx, hjd⟩, List.get_mem .., ?_⟩
        have hel : (s.records.drop idx)[j - idx] = s.records[j] := by
          rw [List.getElem_drop]
          congr 1
          omega
        simp only [List.get_eq_getElem, hel]
        simpa using hty
  · intro st data st' rest h
    exact (decodeStep_cont_inv h).2.1

/-- Witness for C8 at a concrete stream, type and index: applying the
theorem's conjuncts with the sortedness hypothesis discharged. -/
theorem c8_getRecord_forward_cursor_witness :
    (0 : Nat) ≤ ((Stream.mk [⟨1, []⟩, ⟨4, []⟩]).getRecord 4 0).2.1 ∧
    (((Stream.mk [⟨1, []⟩, ⟨4, []⟩]).getRecord 4 0).2.2 = true ↔
      ∃ j, 0 ≤ j ∧ ∃ hj : j < (Stream.mk [⟨1, []⟩, ⟨4, []⟩]).records.length,
        ((Stream.mk [⟨1, []⟩, ⟨4, []⟩]).records.get ⟨j, hj⟩).typ = 4) := by
  refine ⟨(c8_getRecord_forward_cursor (Stream.mk [⟨1, []⟩, ⟨4, []⟩]) 4 0).1, ?_⟩
  exact (c8_getRecord_forward_cursor (Stream.mk [⟨1, []⟩, ⟨4, []⟩]) 4 0).2.1
    (by decide)


/-! ### Decode claim theorems -/

theorem inv_initState (tracked : Bool) (recs : List Record)
    (hs : List.Pairwise (· < ·) (recs.map Record.typ)) :
    Inv (initState tracked recs) := by
  refine ⟨rfl, by simp [initState], hs, by simp [initState]⟩

theorem ascFrom_append_lt {lo t : Nat} {l : List Nat}
    (h : AscFrom lo (l ++ [t])) : ∀ x ∈ l, x < t := by
  have := (ascFrom_iff lo (l ++ [t])).mp h
  have hp := this.2
  rw [List.pairwise_append] at hp
  intro x hx
  exact hp.2.2 x hx t (by simp)

/-- C1: during a tracked decode of a well-formed stream of wire records
(ascending in-range types, lengths within the limit), an even type unknown
to the stream does not fail the decode at that record: the whole input is
consumed, every record's type (including those after the offender) appears
in the returned type set, and the call returns an unknown-required-type
error carrying exactly the type of the first such record. -/
theorem c1_tracked_deferred_unknown_required (s : Stream) (fs : List Frame)
    (u : Frame)
    (hs : List.Pairwise (fun a b => a.typ < b.typ) s.records)
    (hasc : AscFrom 0 (fs.map Frame.typ))
    (hb : ∀ f ∈ fs, f.typ < 2 ^ 64 ∧ f.val.length ≤ MaxRecordSize)
    (hu : (fs.filter (unknownEvenB s.records)).head? = some u) :
    (s.DecodeWithParsedTypes (encodeFrames fs)).parsed =
      some (fs.map Frame.typ) ∧
    (s.DecodeWithParsedTypes (encodeFrames fs)).err =
      some (.unknownRequiredType u.typ) := by
  have hsorted : List.Pairwise (· < ·) (s.records.map Record.typ) := by
    simpa [List.pairwise_map] using hs
  have inv0 := inv_initState true s.records hsorted
  unfold Stream.DecodeWithParsedTypes Stream.decode
  rw [← List.append_nil (encodeFrames fs)]
  rw [decodeLoop_walk fs (initState true s.records) [] inv0 hasc
    (fun f hf => hb f hf) (by intro hpn; simp [initState] at hpn)]
  rw [show (([] : List Nat).length + 1) = 1 from rfl, decodeLoop_succ,
    decodeStep_nil]
  dsimp only
  constructor
  · rw [walkSt_parsed]
    simp [initState]
  · rw [walkSt_firstFail fs (initState true s.records) inv0 hasc
      (fun f hf => (hb f hf).1)]
    show (match (initState true s.records).firstFail with
      | some t => some t
      | none => ((fs.filter
          (unknownEvenB (initState true s.records).recs)).head?).map
            Frame.typ).map Err.unknownRequiredType = _
    show ((fs.filter (unknownEvenB s.records)).head?.map
      Frame.typ).map Err.unknownRequiredType = _
    rw [hu]
    rfl

/-- Witness for C1: a stream knowing types 1 and 3 fed records of types
1, 2 (unknown required), 3; the tracked decode reports all three types and
the deferred error names type 2 (the spec's own walked scenario). -/
theorem c1_tracked_deferred_unknown_required_witness :
    ((Stream.mk [⟨1, [0, 0, 0, 0]⟩, ⟨3, [0]⟩]).DecodeWithParsedTypes
        (encodeFrames [⟨1, [255, 255, 255, 255]⟩, ⟨2, [1]⟩, ⟨3, [1]⟩])).parsed =
      some [1, 2, 3] ∧
    ((Stream.mk [⟨1, [0, 0, 0, 0]⟩, ⟨3, [0]⟩]).DecodeWithParsedTypes
        (encodeFrames [⟨1, [255, 255, 255, 255]⟩, ⟨2, [1]⟩, ⟨3, [1]⟩])).err =
      some (.unknownRequiredType 2) := by
  have := c1_tracked_deferred_unknown_required
    (Stream.mk [⟨1, [0, 0, 0, 0]⟩, ⟨3, [0]⟩])
    [⟨1, [255, 255, 255, 255]⟩, ⟨2, [1]⟩, ⟨3, [1]⟩] ⟨2, [1]⟩
    (by decide) (by decide) (by decide) (by decide)
  exact this


/-- C2: decode canonicality.  For both decode modes, after any well-formed
prefix of accepted records, a wire record whose type is not strictly above
every previously accepted type — which, for in-range types, also covers any
record following one of type `2^64 - 1` — fails the decode with
`ErrStreamNotCanonical` (and a nil type set), no matter what bytes follow
and regardless of whether the offending type is known to the stream.  For
an untracked decode the prefix is additionally assumed free of unknown
required types, otherwise the decode would have failed before reaching the
offending record. -/
theorem c2_decode_not_canonical (s : Stream) (tracked : Bool)
    (fs : List Frame) (t : Nat) (junk : List Nat)
    (hs : List.Pairwise (fun a b => a.typ < b.typ) s.records)
    (hasc : AscFrom 0 (fs.map Frame.typ))
    (hb : ∀ f ∈ fs, f.typ < 2 ^ 64 ∧ f.val.length ≤ MaxRecordSize)
    (hmode : tracked = true ∨
      ∀ f ∈ fs, f.typ % 2 = 0 → f.typ ∈ s.records.map Record.typ)
    (hne : fs ≠ []) (ht : t < 2 ^ 64)
    (hle : t ≤ (fs.getLast hne).typ) :
    (s.decode tracked (encodeFrames fs ++ (WriteVarInt t ++ junk))).parsed =
      none ∧
    (s.decode tracked (encodeFrames fs ++ (WriteVarInt t ++ junk))).err =
      some .streamNotCanonical := by
  have hsorted : List.Pairwise (· < ·) (s.records.map Record.typ) := by
    simpa [List.pairwise_map] using hs
  have inv0 := inv_initState tracked s.records hsorted
  unfold Stream.decode
  rw [decodeLoop_walk fs (initState tracked s.records) (WriteVarInt t ++ junk)
    inv0 hasc (fun f hf => hb f hf) ?hmode]
  case hmode =>
    intro hpn
    rcases hmode with h | h
    · subst h
      simp [initState] at hpn
    · intro f hf hev
      exact h f hf hev
  rw [decodeLoop_succ, decodeStep_notCanonical junk ht
    (walkSt_viol hne (fun f hf => (hb f hf).1) hle)]
  exact ⟨rfl, rfl⟩

/-- Witness for C2: an untracked decode of two records of types 3 then 3
(duplicate) on a stream knowing nothing fails with the not-canonical
error; hypotheses discharged at the concrete input. -/
theorem c2_decode_not_canonical_witness :
    ((Stream.mk []).decode false
      (encodeFrames [⟨3, [7]⟩] ++ (WriteVarInt 3 ++ [1, 7]))).parsed = none ∧
    ((Stream.mk []).decode false
      (encodeFrames [⟨3, [7]⟩] ++ (WriteVarInt 3 ++ [1, 7]))).err =
      some .streamNotCanonical := by
  exact c2_decode_not_canonical (Stream.mk []) false [⟨3, [7]⟩] 3 [1, 7]
    (by decide) (by decide) (by decide) (Or.inr (by decide)) (by decide)
    (by decide) (by decide)


/-- C4: untracked unknown fields.  After a well-formed prefix whose types
are all known or odd, (a) a record with an even type unknown to the stream
fails the untracked decode immediately with an unknown-required-type error
carrying that type — no matter what bytes follow its declared length, so
none of its value bytes are consumed before failing; and (b) a well-formed
stream containing only known or odd (silently skipped) types decodes
without error, the skipped records' declared lengths being discarded. -/
theorem c4_untracked_unknown_fields (s : Stream)
    (hs : List.Pairwise (fun a b => a.typ < b.typ) s.records) :
    (∀ (fs : List Frame) (t len : Nat) (junk : List Nat),
      AscFrom 0 (fs.map Frame.typ ++ [t]) →
      (∀ f ∈ fs, f.typ < 2 ^ 64 ∧ f.val.length ≤ MaxRecordSize) →
      (∀ f ∈ fs, f.typ % 2 = 0 → f.typ ∈ s.records.map Record.typ) →
      t < 2 ^ 64 → len ≤ MaxRecordSize → t % 2 = 0 →
      t ∉ s.records.map Record.typ →
      (s.Decode (encodeFrames fs ++
        (WriteVarInt t ++ (WriteVarInt len ++ junk)))).2 =
          some (.unknownRequiredType t)) ∧
    (∀ fs : List Frame,
      AscFrom 0 (fs.map Frame.typ) →
      (∀ f ∈ fs, f.typ < 2 ^ 64 ∧ f.val.length ≤ MaxRecordSize) →
      (∀ f ∈ fs, f.typ % 2 = 0 → f.typ ∈ s.records.map Record.typ) →
      (s.Decode (encodeFrames fs)).2 = none) := by
  have hsorted : List.Pairwise (· < ·) (s.records.map Record.typ) := by
    simpa [List.pairwise_map] using hs
  have inv0 := inv_initState false s.records hsorted
  constructor
  · intro fs t len junk hasc2 hb hknown ht hlen hev hunk
    have hasc : AscFrom 0 (fs.map Frame.typ) := ascFrom_append_left hasc2
    have hmax : ∀ f ∈ fs, f.typ < maxUint64 := by
      intro f hf
      have := ascFrom_append_lt hasc2 f.typ (List.mem_map_of_mem Frame.typ hf)
      simp only [maxUint64]
      omega
    unfold Stream.Decode Stream.decode
    rw [decodeLoop_walk fs (initState false s.records)
      (WriteVarInt t ++ (WriteVarInt len ++ junk)) inv0 hasc
      (fun f hf => hb f hf) (fun _ => hknown)]
    obtain ⟨hov, hminle⟩ := walkSt_min_le fs (initState false s.records)
      hmax hasc2
    obtain ⟨inv', hrecs, hparsed⟩ := walkSt_inv fs (initState false s.records)
      inv0 hasc hmax
    have hpn : (walkSt (initState false s.records) fs).parsed = none :=
      hparsed.mpr rfl
    have hunf : (getRecordGo t
        ((walkSt (initState false s.records) fs).recs.drop
          (walkSt (initState false s.records) fs).recordIdx)
        (walkSt (initState false s.records) fs).recordIdx).2.2 = false := by
      rw [← Bool.not_eq_true]
      intro hc
      have := (found_iff_mem inv' hminle).mp hc
      rw [hrecs] at this
      exact hunk (by simpa [initState] using this)
    have hok : ¬((walkSt (initState false s.records) fs).overflow = true ∨
        t < (walkSt (initState false s.records) fs).min) := by
      rw [hov, show (initState false s.records).overflow = false from rfl]
      simp only [Bool.false_eq_true, false_or, not_lt]
      exact hminle
    rw [decodeLoop_succ, decodeStep_unknownEven junk ht hok hlen hunf hev hpn]
  · intro fs hasc hb hknown
    unfold Stream.Decode Stream.decode
    rw [← List.append_nil (encodeFrames fs)]
    rw [decodeLoop_walk fs (initState false s.records) [] inv0 hasc
      (fun f hf => hb f hf) (fun _ => hknown)]
    rw [show (([] : List Nat).length + 1) = 1 from rfl, decodeLoop_succ,
      decodeStep_nil]
    dsimp only
    rw [walkSt_firstFail fs (initState false s.records) inv0 hasc
      (fun f hf => (hb f hf).1)]
    show (match (none : Option Nat) with
      | some t => some t
      | none => ((fs.filter
          (unknownEvenB (initState false s.records).recs)).head?).map
            Frame.typ).map Err.unknownRequiredType = none
    have hfil : fs.filter (unknownEvenB (initState false s.records).recs)
        = [] := by
      rw [List.filter_eq_nil_iff]
      intro f hf hc
      rcases (unknownEvenB_iff _ _).mp hc with ⟨hev, hnm⟩
      exact hnm (by simpa [initState] using hknown f hf hev)
    rw [hfil]
    rfl

/-- Witness for C4: a stream knowing only type 1 immediately rejects the
unknown even type 2 (even though the record's declared byte is missing),
and silently skips the unknown odd type 5. -/
theorem c4_untracked_unknown_fields_witness :
    ((Stream.mk [⟨1, [0]⟩]).Decode (encodeFrames [⟨1, [9]⟩] ++
      (WriteVarInt 2 ++ (WriteVarInt 1 ++ [])))).2 =
        some (.unknownRequiredType 2) ∧
    ((Stream.mk [⟨1, [0]⟩]).Decode (encodeFrames [⟨1, [9]⟩, ⟨5, [4, 4]⟩])).2 =
      none := by
  constructor
  · exact (c4_untracked_unknown_fields (Stream.mk [⟨1, [0]⟩]) (by decide)).1
      [⟨1, [9]⟩] 2 1 [] (by decide) (by decide) (by decide) (by decide)
      (by decide) (by decide) (by decide)
  · exact (c4_untracked_unknown_fields (Stream.mk [⟨1, [0]⟩]) (by decide)).2
      [⟨1, [9]⟩, ⟨5, [4, 4]⟩] (by decide) (by decide) (by decide)


/-- C6: record size limit.  (a) In either decode mode, a record declaring a
length above `MaxRecordSize` (65535) fails with `ErrRecordTooLarge` no
matter what bytes follow the length prefix — in particular none of the
record's value bytes are read — and regardless of whether its type is known;
(b) a record declaring exactly 65535 bytes is accepted. -/
theorem c6_record_size_limit (s : Stream)
    (hs : List.Pairwise (fun a b => a.typ < b.typ) s.records) :
    (∀ (tracked : Bool) (fs : List Frame) (t len : Nat) (junk : List Nat),
      AscFrom 0 (fs.map Frame.typ ++ [t]) →
      (∀ f ∈ fs, f.typ < 2 ^ 64 ∧ f.val.length ≤ MaxRecordSize) →
      (tracked = true ∨
        ∀ f ∈ fs, f.typ % 2 = 0 → f.typ ∈ s.records.map Record.typ) →
      t < 2 ^ 64 → len < 2 ^ 64 → len > MaxRecordSize →
      (s.decode tracked (encodeFrames fs ++
        (WriteVarInt t ++ (WriteVarInt len ++ junk)))).err =
          some .recordTooLarge) ∧
    (∀ (tracked : Bool) (t : Nat) (v : List Nat),
      t < 2 ^ 64 → t % 2 = 1 → v.length = MaxRecordSize →
      (s.decode tracked (encodeFrames [⟨t, v⟩])).err = none) := by
  have hsorted : List.Pairwise (· < ·) (s.records.map Record.typ) := by
    simpa [List.pairwise_map] using hs
  constructor
  · intro tracked fs t len junk hasc2 hb hmode ht hlb hbig
    have inv0 := inv_initState tracked s.records hsorted
    have hasc : AscFrom 0 (fs.map Frame.typ) := ascFrom_append_left hasc2
    have hmax : ∀ f ∈ fs, f.typ < maxUint64 := by
      intro f hf
      have := ascFrom_append_lt hasc2 f.typ (List.mem_map_of_mem Frame.typ hf)
      simp only [maxUint64]
      omega
    unfold Stream.decode
    rw [decodeLoop_walk fs (initState tracked s.records)
      (WriteVarInt t ++ (WriteVarInt len ++ junk)) inv0 hasc
      (fun f hf => hb f hf) ?hmode]
    case hmode =>
      intro hpn
      rcases hmode with h | h
      · subst h
        simp [initState] at hpn
      · intro f hf hev
        exact h f hf hev
    obtain ⟨hov, hminle⟩ := walkSt_min_le fs (initState tracked s.records)
      hmax hasc2
    have hok : ¬((walkSt (initState tracked s.records) fs).overflow = true ∨
        t < (walkSt (initState tracked s.records) fs).min) := by
      rw [hov, show (initState tracked s.records).overflow = false from rfl]
      simp only [Bool.false_eq_true, false_or, not_lt]
      exact hminle
    rw [decodeLoop_succ, decodeStep_tooLarge junk ht hlb hok hbig]
  · intro tracked t v ht hodd hvl
    have inv0 := inv_initState tracked s.records hsorted
    unfold Stream.decode
    rw [← List.append_nil (encodeFrames [⟨t, v⟩])]
    rw [decodeLoop_walk [⟨t, v⟩] (initState tracked s.records) [] inv0
      (by exact ⟨Nat.zero_le t, trivial⟩)
      (by intro f hf; simp at hf; subst hf; exact ⟨ht, le_of_eq hvl⟩)
      (by
        intro hpn f hf hev
        simp at hf
        subst hf
        have hev' : t % 2 = 0 := hev
        omega)]
    rw [show (([] : List Nat).length + 1) = 1 from rfl, decodeLoop_succ,
      decodeStep_nil]
    dsimp only
    rw [walkSt_firstFail [⟨t, v⟩] (initState tracked s.records) inv0
      (by exact ⟨Nat.zero_le t, trivial⟩)
      (by intro f hf; simp at hf; subst hf; exact ht)]
    have hfil : ([⟨t, v⟩] : List Frame).filter
        (unknownEvenB (initState tracked s.records).recs) = [] := by
      rw [List.filter_eq_nil_iff]
      intro f hf hc
      simp at hf
      subst hf
      rcases (unknownEvenB_iff _ _).mp hc with ⟨hev, -⟩
      have hev' : t % 2 = 0 := hev
      omega
    rw [hfil]
    cases hsf : (initState tracked s.records).firstFail
    · rfl
    · simp [initState] at hsf

/-- Witness for C6: a declared length of 65536 fails with the size-limit
error before its value bytes exist, and a record of exactly 65535 value
bytes decodes cleanly. -/
theorem c6_record_size_limit_witness :
    ((Stream.mk []).decode true
      (encodeFrames [] ++ (WriteVarInt 3 ++ (WriteVarInt 65536 ++ [])))).err =
        some .recordTooLarge ∧
    ((Stream.mk []).decode true
      (encodeFrames [⟨3, List.replicate 65535 0⟩])).err = none := by
  constructor
  · exact (c6_record_size_limit (Stream.mk []) (by decide)).1 true [] 3 65536
      [] (by decide) (by decide) (Or.inl rfl) (by decide) (by decide)
      (by decide)
  · exact (c6_record_size_limit (Stream.mk []) (by decide)).2 true 3
      (List.replicate 65535 0) (by decide) (by decide)
      (by rw [List.length_replicate]; rfl)


/-! ### C3: which errors carry the type set -/

/-- Counterexample to C3 as stated: a tracked decode of two records both of
type 1 (not canonical) fails with `ErrStreamNotCanonical` and a nil type
set, although type 1 was encountered — decoding the first record alone
yields the set containing 1.  So the partially built type set is not
exposed with every error outcome. -/
theorem c3_counterexample :
    ((Stream.mk []).DecodeWithParsedTypes [1, 0, 1, 0]).err =
      some .streamNotCanonical ∧
    ((Stream.mk []).DecodeWithParsedTypes [1, 0, 1, 0]).parsed = none ∧
    ((Stream.mk []).DecodeWithParsedTypes [1, 0]).parsed = some [1] := by
  decide

/-- C3 amended: `DecodeWithParsedTypes` returns the type set exactly on
success and with the deferred unknown-required-type error; every other
failure returns a nil type set alongside the error. -/
theorem c3_error_type_set_amended (s : Stream) (data : List Nat) :
    (s.DecodeWithParsedTypes data).parsed.isSome = true ↔
      ((s.DecodeWithParsedTypes data).err = none ∨
        ∃ t, (s.DecodeWithParsedTypes data).err =
          some (.unknownRequiredType t)) :=
  decodeLoop_parsed_iff _ _ _ (by simp [initState])

/-! ### C9: Encode ordering and error propagation -/

/-- The three byte chunks one record contributes, in the order Encode
writes them: VarInt type, VarInt size, encoded value. -/
def recordChunks (r : Record) : List (List Nat) :=
  [WriteVarInt r.typ, WriteVarInt r.value.length, r.value]

/-- The write calls Encode issues for a record list, in stored order. -/
def encodeChunks (rs : List Record) : List (List Nat) :=
  (rs.map recordChunks).flatten

theorem encodeRecords_none :
    ∀ (rs : List Record) (ws : List Nat) (c : Nat),
      encodeRecords rs ⟨ws, none, c⟩ =
        (⟨ws ++ (encodeChunks rs).flatten, none, c⟩, none) := by
  intro rs
  induction rs with
  | nil => intro ws c; simp [encodeRecords, encodeChunks]
  | cons r rest ih =>
    intro ws c
    show encodeRecords rest _ = _
    dsimp only
    rw [ih]
    simp [encodeChunks, recordChunks, List.append_assoc]

theorem encodeRecords_failAfter :
    ∀ (rs : List Record) (ws : List Nat) (c k : Nat),
      (k < (encodeChunks rs).length →
        (encodeRecords rs ⟨ws, some k, c⟩).1.written =
          ws ++ ((encodeChunks rs).take k).flatten ∧
        (encodeRecords rs ⟨ws, some k, c⟩).2 = some (.ioErr c)) ∧
      ((encodeChunks rs).length ≤ k →
        encodeRecords rs ⟨ws, some k, c⟩ =
          (⟨ws ++ (encodeChunks rs).flatten,
            some (k - (encodeChunks rs).length), c⟩, none)) := by
  intro rs
  induction rs with
  | nil =>
    intro ws c k
    constructor
    · intro h
      simp [encodeChunks] at h
    · intro h
      simp [encodeRecords, encodeChunks]
  | cons r rest ih =>
    intro ws c k
    have hlen : (encodeChunks (r :: rest)).length =
        (encodeChunks rest).length + 3 := by
      simp [encodeChunks, recordChunks]
    match k with
    | 0 =>
      constructor
      · intro h
        refine ⟨?_, rfl⟩
        show ws = ws ++ (List.take 0 (encodeChunks (r :: rest))).flatten
        simp
      · intro h
        rw [hlen] at h
        omega
    | 1 =>
      constructor
      · intro h
        refine ⟨?_, rfl⟩
        show ws ++ WriteVarInt r.typ =
          ws ++ (List.take 1 (encodeChunks (r :: rest))).flatten
        simp [encodeChunks, recordChunks]
      · intro h
        rw [hlen] at h
        omega
    | 2 =>
      constructor
      · intro h
        refine ⟨?_, rfl⟩
        show ws ++ WriteVarInt r.typ ++ WriteVarInt r.value.length =
          ws ++ (List.take 2 (encodeChunks (r :: rest))).flatten
        simp [encodeChunks, recordChunks, List.append_assoc]
      · intro h
        rw [hlen] at h
        omega
    | (j + 3) =>
      have hstep : encodeRecords (r :: rest) ⟨ws, some (j + 3), c⟩ =
          encodeRecords rest
            ⟨ws ++ WriteVarInt r.typ ++ WriteVarInt r.value.length ++
              r.value, some j, c⟩ := rfl
      constructor
      · intro h
        rw [hlen] at h
        have := (ih (ws ++ WriteVarInt r.typ ++ WriteVarInt r.value.length ++
          r.value) c j).1 (by omega)
        rw [hstep]
        refine ⟨?_, this.2⟩
        rw [this.1]
        simp [encodeChunks, recordChunks, List.take_succ_cons,
          List.append_assoc]
      · intro h
        rw [hlen] at h
        have := (ih (ws ++ WriteVarInt r.typ ++ WriteVarInt r.value.length ++
          r.value) c j).2 (by omega)
        rw [hstep, this, hlen]
        simp [encodeChunks, recordChunks, List.append_assoc]

/-- C9: Encode processes the records in stored order, writing for each the
type VarInt, then the size VarInt, then the value via the encode
capability (the chunk list, in order).  A sink that never fails receives
exactly the concatenation; a sink that accepts exactly `k` write calls
makes Encode abort at the first failing call, return the sink's error
verbatim, and leave the `k` chunks already accepted in place — nothing is
rolled back. -/
theorem c9_encode_order_and_errors (s : Stream) (ws : List Nat) (c : Nat) :
    s.Encode ⟨ws, none, c⟩ =
      (⟨ws ++ (encodeChunks s.records).flatten, none, c⟩, none) ∧
    (∀ k, k < (encodeChunks s.records).length →
      (s.Encode ⟨ws, some k, c⟩).1.written =
        ws ++ ((encodeChunks s.records).take k).flatten ∧
      (s.Encode ⟨ws, some k, c⟩).2 = some (.ioErr c)) ∧
    (∀ k, (encodeChunks s.records).length ≤ k →
      s.Encode ⟨ws, some k, c⟩ =
        (⟨ws ++ (encodeChunks s.records).flatten,
          some (k - (encodeChunks s.records).length), c⟩, none)) := by
  refine ⟨encodeRecords_none s.records ws c, ?_, ?_⟩
  · intro k hk
    exact (encodeRecords_failAfter s.records ws c k).1 hk
  · intro k hk
    exact (encodeRecords_failAfter s.records ws c k).2 hk

/-- Witness for C9: a two-record stream writes its six chunks in order to a
reliable sink; with a sink failing at the third write call the first
record's three chunks remain written and the sink's error is returned
verbatim. -/
theorem c9_encode_order_and_errors_witness :
    (Stream.mk [⟨1, [9]⟩, ⟨4, [5, 6]⟩]).Encode ⟨[], none, 7⟩ =
      (⟨[1, 1, 9, 4, 2, 5, 6], none, 7⟩, none) ∧
    ((Stream.mk [⟨1, [9]⟩, ⟨4, [5, 6]⟩]).Encode ⟨[], some 3, 7⟩).1.written =
      [1, 1, 9] ∧
    ((Stream.mk [⟨1, [9]⟩, ⟨4, [5, 6]⟩]).Encode ⟨[], some 3, 7⟩).2 =
      some (.ioErr 7) := by
  have h := c9_encode_order_and_errors (Stream.mk [⟨1, [9]⟩, ⟨4, [5, 6]⟩]) [] 7
  refine ⟨?_, ?_, ?_⟩
  · rw [h.1]
    decide
  · rw [(h.2.1 3 (by decide)).1]
    decide
  · exact (h.2.1 3 (by decide)).2


/-! ### C10: decode outcome does not depend on stored values -/

theorem getRecordGo_types_eq {t : Nat} :
    ∀ {l1 l2 : List Record} (idx : Nat),
      l2.map Record.typ = l1.map Record.typ →
      (getRecordGo t l2 idx).2 = (getRecordGo t l1 idx).2 := by
  intro l1
  induction l1 with
  | nil =>
    intro l2 idx h
    cases l2 with
    | nil => rfl
    | cons x xs => simp at h
  | cons r1 rest1 ih =>
    intro l2 idx h
    cases l2 with
    | nil => simp at h
    | cons r2 rest2 =>
      simp only [List.map_cons, List.cons.injEq] at h
      obtain ⟨hty, htl⟩ := h
      unfold getRecordGo
      rw [hty]
      by_cases he : r1.typ = t
      · simp [he]
      · by_cases hlt : r1.typ < t
        · simp only [he, if_false, hlt, if_true]
          exact ih (idx + 1) htl
        · simp [he, hlt]

theorem map_typ_set (l : List Record) (i : Nat) (r : Record) :
    (l.set i r).map Record.typ = (l.map Record.typ).set i r.typ :=
  List.map_set ..

/-- Relation between the loop-iteration results of two states that agree on
everything except the stored record values: same termination outcome (type
set and error), or same continuation with states again agreeing except for
values. -/
def SimRes : StepRes → StepRes → Prop
  | .done r1, .done r2 => r2.parsed = r1.parsed ∧ r2.err = r1.err
  | .cont s1 rest1, .cont s2 rest2 =>
    rest2 = rest1 ∧ s2.min = s1.min ∧ s2.firstFail = s1.firstFail ∧
    s2.recordIdx = s1.recordIdx ∧ s2.overflow = s1.overflow ∧
    s2.parsed = s1.parsed ∧ s2.recs.map Record.typ = s1.recs.map Record.typ
  | _, _ => False

theorem decodeStep_sim {st1 st2 : DecState} (data : List Nat)
    (hmin : st2.min = st1.min) (hff : st2.firstFail = st1.firstFail)
    (hidx : st2.recordIdx = st1.recordIdx)
    (hov : st2.overflow = st1.overflow) (hpar : st2.parsed = st1.parsed)
    (hrecs : st2.recs.map Record.typ = st1.recs.map Record.typ) :
    SimRes (decodeStep st1 data) (decodeStep st2 data) := by
  unfold decodeStep
  rw [hmin, hff, hidx, hov, hpar]
  cases hread : ReadVarInt data with
  | error e =>
    rcases ReadVarInt_error_cases hread with rfl | rfl
    · cases hff1 : st1.firstFail with
      | none => exact ⟨rfl, rfl⟩
      | some t => exact ⟨rfl, rfl⟩
    · exact ⟨rfl, rfl⟩
  | ok v =>
    rcases v with ⟨typ, data1⟩
    dsimp only
    by_cases hviol : st1.overflow = true ∨ typ < st1.min
    · rw [if_pos hviol, if_pos hviol]
      exact ⟨rfl, rfl⟩
    · rw [if_neg hviol, if_neg hviol]
      cases hread2 : ReadVarInt data1 with
      | error e =>
        rcases ReadVarInt_error_cases hread2 with rfl | rfl <;>
          exact ⟨rfl, rfl⟩
      | ok v2 =>
        rcases v2 with ⟨len, data2⟩
        dsimp only
        by_cases hbig : len > MaxRecordSize
        · rw [if_pos hbig, if_pos hbig]
          exact ⟨rfl, rfl⟩
        · rw [if_neg hbig, if_neg hbig]
          rcases hget : getRecordGo typ (st1.recs.drop st1.recordIdx)
            st1.recordIdx with ⟨r1, newIdx, found⟩
          have hmap : (st2.recs.drop st1.recordIdx).map Record.typ =
              (st1.recs.drop st1.recordIdx).map Record.typ := by
            rw [List.map_drop, List.map_drop, hrecs]
          have hget2p : (getRecordGo typ (st2.recs.drop st1.recordIdx)
              st1.recordIdx).2 = (newIdx, found) := by
            rw [getRecordGo_types_eq st1.recordIdx hmap, hget]
          have hget2 : getRecordGo typ (st2.recs.drop st1.recordIdx)
              st1.recordIdx =
                ((getRecordGo typ (st2.recs.drop st1.recordIdx)
                  st1.recordIdx).1, newIdx, found) := by
            rw [← hget2p]
          rw [hget2]
          cases found with
          | true =>
            dsimp only
            by_cases hle : len ≤ data2.length
            · rw [if_pos hle, if_pos hle]
              refine ⟨rfl, rfl, rfl, rfl, rfl, rfl, ?_⟩
              dsimp only
              rw [map_typ_set, map_typ_set, hrecs]
            · rw [if_neg hle, if_neg hle]
              exact ⟨rfl, rfl⟩
          | false =>
            dsimp only
            by_cases hfail : typ % 2 = 0 ∧ st1.parsed = none
            · rw [if_pos hfail, if_pos hfail]
              exact ⟨rfl, rfl⟩
            · rw [if_neg hfail, if_neg hfail]
              by_cases hle : len ≤ data2.length
              · rw [if_pos hle, if_pos hle]
                exact ⟨rfl, rfl, rfl, rfl, rfl, rfl, hrecs⟩
              · rw [if_neg hle, if_neg hle]
                exact ⟨rfl, rfl⟩

theorem decodeLoop_sim :
    ∀ (fuel : Nat) (st1 st2 : DecState) (data : List Nat),
      st2.min = st1.min → st2.firstFail = st1.firstFail →
      st2.recordIdx = st1.recordIdx → st2.overflow = st1.overflow →
      st2.parsed = st1.parsed →
      st2.recs.map Record.typ = st1.recs.map Record.typ →
      (decodeLoop fuel st2 data).parsed = (decodeLoop fuel st1 data).parsed ∧
      (decodeLoop fuel st2 data).err = (decodeLoop fuel st1 data).err := by
  intro fuel
  induction fuel with
  | zero => intros; exact ⟨rfl, rfl⟩
  | succ fuel ih =>
    intro st1 st2 data h1 h2 h3 h4 h5 h6
    have hsim := decodeStep_sim data h1 h2 h3 h4 h5 h6
    rw [decodeLoop_succ, decodeLoop_succ]
    cases hs1 : decodeStep st1 data with
    | done r1 =>
      cases hs2 : decodeStep st2 data with
      | done r2 =>
        rw [hs1, hs2] at hsim
        exact hsim
      | cont s2 rest2 =>
        rw [hs1, hs2] at hsim
        exact hsim.elim
    | cont s1 rest1 =>
      cases hs2 : decodeStep st2 data with
      | done r2 =>
        rw [hs1, hs2] at hsim
        exact hsim.elim
      | cont s2 rest2 =>
        rw [hs1, hs2] at hsim
        obtain ⟨hrest, hh1, hh2, hh3, hh4, hh5, hh6⟩ := hsim
        subst hrest
        exact ih s1 s2 rest2 hh1 hh2 hh3 hh4 hh5 hh6

/-- C10: the decode operations never change the stream's record structure —
the record types (and count) survive any decode unchanged; only the values
behind the records are written.  Consequently the type set and error
outcome of a decode depend only on the record types, not on the stored
values: a stream whose records carry the same types in the same order
produces the same outcome, and in particular running any earlier decode
first (which can only rewrite values) does not change the outcome of a
later call.  Encode takes the stream by value in the embedding and cannot
modify it at all. -/
theorem c10_no_stream_mutation (s s2 : Stream) (tracked : Bool)
    (data d1 : List Nat) :
    (s.decode tracked data).recs.map Record.typ =
      s.records.map Record.typ ∧
    (s2.records.map Record.typ = s.records.map Record.typ →
      (s2.decode tracked data).parsed = (s.decode tracked data).parsed ∧
      (s2.decode tracked data).err = (s.decode tracked data).err) ∧
    ((Stream.mk (s.decode tracked d1).recs).decode tracked data).parsed =
      (s.decode tracked data).parsed ∧
    ((Stream.mk (s.decode tracked d1).recs).decode tracked data).err =
      (s.decode tracked data).err := by
  have hpart1 : ∀ (s' : Stream) (d : List Nat),
      (s'.decode tracked d).recs.map Record.typ =
        s'.records.map Record.typ := by
    intro s' d
    exact decodeLoop_recs_types (d.length + 1)
      (initState tracked s'.records) d
  have hpart2 : ∀ (s' : Stream),
      s'.records.map Record.typ = s.records.map Record.typ →
      (s'.decode tracked data).parsed = (s.decode tracked data).parsed ∧
      (s'.decode tracked data).err = (s.decode tracked data).err := by
    intro s' hty
    exact decodeLoop_sim (data.length + 1) (initState tracked s.records)
      (initState tracked s'.records) data rfl rfl rfl rfl rfl hty
  refine ⟨hpart1 s data, hpart2 s2, ?_⟩
  exact hpart2 (Stream.mk (s.decode tracked d1).recs) (hpart1 s d1)

/-- Witness for C10: two streams knowing type 1 with different stored
values decode the same input to the same type set and outcome, and the
final record types are unchanged. -/
theorem c10_no_stream_mutation_witness :
    ((Stream.mk [⟨1, [0, 0]⟩]).decode true [1, 2, 8, 9]).recs.map
      Record.typ = [1] ∧
    ((Stream.mk [⟨1, [7]⟩]).decode true [1, 2, 8, 9]).parsed =
      ((Stream.mk [⟨1, [0, 0]⟩]).decode true [1, 2, 8, 9]).parsed ∧
    ((Stream.mk [⟨1, [7]⟩]).decode true [1, 2, 8, 9]).err =
      ((Stream.mk [⟨1, [0, 0]⟩]).decode true [1, 2, 8, 9]).err := by
  have h := c10_no_stream_mutation (Stream.mk [⟨1, [0, 0]⟩])
    (Stream.mk [⟨1, [7]⟩]) true [1, 2, 8, 9] []
  refine ⟨?_, h.2.1 (by decide)⟩
  rw [h.1]
  decide


/-! ### C7: encode/decode round trip -/

theorem list_set_append {α : Type} :
    ∀ (l1 l2 : List α) (x : α),
      (l1 ++ l2).set l1.length x = l1 ++ l2.set 0 x := by
  intro l1
  induction l1 with
  | nil => intro l2 x; rfl
  | cons a tl ih =>
    intro l2 x
    simp only [List.cons_append, List.length_cons, List.set_cons_succ,
      List.cons.injEq, true_and]
    exact ih l2 x

theorem newStreamRecords_ok_eq :
    ∀ {rs out : List Record} {lo : Nat} {ov : Bool},
      newStreamRecords rs lo ov = .ok out → out = rs := by
  intro rs
  induction rs with
  | nil =>
    intro out lo ov h
    simp only [newStreamRecords] at h
    injection h with h'
    exact h'.symm
  | cons r rest ih =>
    intro out lo ov h
    unfold newStreamRecords at h
    split at h
    · exact Except.noConfusion h
    · cases hrec : newStreamRecords rest ((r.typ + 1) % 2 ^ 64)
        (ov || (r.typ == maxUint64)) with
      | error e => rw [hrec] at h; exact Except.noConfusion h
      | ok out' =>
        rw [hrec] at h
        injection h with h'
        rw [← h', ih hrec]

theorem newStream_ok_asc :
    ∀ {rs : List Record} {lo : Nat} {out : List Record},
      (∀ r ∈ rs, r.typ < 2 ^ 64) →
      newStreamRecords rs lo false = .ok out →
      AscFrom lo (rs.map Record.typ) := by
  intro rs
  induction rs with
  | nil => intro lo out hb h; trivial
  | cons r rest ih =>
    intro lo out hb h
    unfold newStreamRecords at h
    split at h
    · exact Except.noConfusion h
    · rename_i hguard
      have hlo : lo ≤ r.typ := by
        simp only [not_or, not_lt] at hguard
        exact hguard.2
      refine ⟨hlo, ?_⟩
      by_cases hmax : r.typ = maxUint64
      · have hov : (false || (r.typ == maxUint64)) = true := by simp [hmax]
        rw [hov] at h
        cases hrest : rest with
        | nil => trivial
        | cons g gs =>
          rw [hrest] at h
          rw [newStreamRecords_overflow (by simp) _] at h
          exact Except.noConfusion h
      · have hov : (false || (r.typ == maxUint64)) = false := by simp [hmax]
        rw [hov] at h
        have hmod : (r.typ + 1) % 2 ^ 64 = r.typ + 1 := by
          apply Nat.mod_eq_of_lt
          have := hb r (List.mem_cons_self r rest)
          simp only [maxUint64] at hmax
          omega
        rw [hmod] at h
        cases hrec : newStreamRecords rest (r.typ + 1) false with
        | error e => rw [hrec] at h; exact Except.noConfusion h
        | ok out' =>
          exact ih (fun x hx => hb x (List.mem_cons_of_mem r hx)) hrec

theorem encodeChunks_flatten :
    ∀ (rs : List Record),
      (encodeChunks rs).flatten = encodeFrames (rs.map recFrame) := by
  intro rs
  induction rs with
  | nil => rfl
  | cons r rest ih =>
    simp only [encodeChunks, encodeFrames, List.map_cons, List.flatten_cons,
      recordChunks] at ih ⊢
    rw [List.flatten_append, ih]
    simp [recFrame, encodeFrame, List.append_assoc]

/-- Decoding the encoding of a pending record list into a stream that knows
exactly those types (with `dn` records already decoded before the cursor):
every record matches, the values are overwritten with the encoded ones, and
the decode ends cleanly. -/
theorem decodeLoop_roundtrip :
    ∀ (pend pend2 dn : List Record) (st : DecState),
      st.recs = dn ++ pend2 →
      st.recordIdx = dn.length →
      st.firstFail = none →
      pend2.map Record.typ = pend.map Record.typ →
      AscFrom st.min (pend.map Record.typ) →
      (∀ r ∈ pend, r.typ < 2 ^ 64 ∧ r.value.length ≤ MaxRecordSize) →
      (pend ≠ [] → st.overflow = false) →
      (decodeLoop ((encodeFrames (pend.map recFrame)).length + 1) st
        (encodeFrames (pend.map recFrame))).recs = dn ++ pend ∧
      (decodeLoop ((encodeFrames (pend.map recFrame)).length + 1) st
        (encodeFrames (pend.map recFrame))).err = none := by
  intro pend
  induction pend with
  | nil =>
    intro pend2 dn st hrecs hidx hff hty hasc hb hov
    have hp2 : pend2 = [] := by
      cases pend2 with
      | nil => rfl
      | cons x xs => simp at hty
    subst hp2
    show (decodeLoop (0 + 1) st []).recs = _ ∧
      (decodeLoop (0 + 1) st []).err = none
    rw [decodeLoop_succ, decodeStep_nil]
    exact ⟨hrecs, by rw [hff]; rfl⟩
  | cons r pend' ih =>
    intro pend2 dn st hrecs hidx hff hty hasc hb hov
    cases pend2 with
    | nil => simp at hty
    | cons r2 pend2' =>
      simp only [List.map_cons, List.cons.injEq] at hty
      obtain ⟨hty1, hty2⟩ := hty
      have hbr := hb r (List.mem_cons_self r pend')
      have hdrop : st.recs.drop st.recordIdx = r2 :: pend2' := by
        rw [hrecs, hidx, List.drop_left]
      have hget : getRecordGo r.typ (st.recs.drop st.recordIdx)
          st.recordIdx = (r2, st.recordIdx + 1, true) := by
        rw [hdrop]
        unfold getRecordGo
        rw [if_pos hty1]
      have hstep := decodeStep_frame st (recFrame r)
        (encodeFrames (pend'.map recFrame)) (hov (by simp))
        (show st.min ≤ r.typ from hasc.1) hbr.1 hbr.2
        (by
          show ¬((getRecordGo r.typ (st.recs.drop st.recordIdx)
            st.recordIdx).2.2 = false ∧ _)
          rw [hget]
          simp)
      have hsame : (stepSt st (recFrame r)) =
          ⟨(r.typ + 1) % 2 ^ 64, st.firstFail, st.recordIdx + 1,
            st.overflow || (r.typ == maxUint64),
            st.parsed.map (· ++ [r.typ]),
            st.recs.set st.recordIdx r⟩ := by
        unfold stepSt
        rw [show getRecordGo (recFrame r).typ
          (st.recs.drop st.recordIdx) st.recordIdx =
            (r2, st.recordIdx + 1, true) from hget]
        rfl
      show (decodeLoop ((encodeFrames ((r :: pend').map recFrame)).length + 1)
          st (encodeFrames ((r :: pend').map recFrame))).recs = _ ∧ _
      rw [show (r :: pend').map recFrame =
        recFrame r :: pend'.map recFrame from rfl, encodeFrames_cons]
      rw [decodeLoop_succ, hstep]
      dsimp only
      have hfc : decodeLoop
          ((encodeFrame (recFrame r) ++
            encodeFrames (pend'.map recFrame)).length)
          (stepSt st (recFrame r)) (encodeFrames (pend'.map recFrame)) =
        decodeLoop ((encodeFrames (pend'.map recFrame)).length + 1)
          (stepSt st (recFrame r)) (encodeFrames (pend'.map recFrame)) := by
        apply decodeLoop_fuel_congr
        · have := encodeFrame_length_pos (recFrame r)
          simp only [List.length_append]
          omega
        · omega
      rw [hfc]
      have hrecs' : (stepSt st (recFrame r)).recs = (dn ++ [r]) ++ pend2' := by
        rw [hsame]
        show st.recs.set st.recordIdx r = _
        rw [hrecs, hidx, list_set_append]
        simp
      have hmaxlt : pend' ≠ [] → r.typ < maxUint64 := by
        intro hne
        cases pend' with
        | nil => exact absurd rfl hne
        | cons g gs =>
          have h1 : r.typ + 1 ≤ g.typ := hasc.2.1
          have h2 := (hb g (by simp)).1
          simp only [maxUint64]
          omega
      have := ih pend2' (dn ++ [r]) (stepSt st (recFrame r)) hrecs'
        (by rw [hsame]; show st.recordIdx + 1 = _; rw [hidx]; simp)
        (by rw [hsame]; exact hff) hty2 ?hasc
        (fun x hx => hb x (List.mem_cons_of_mem r hx)) ?hov
      case hasc =>
        cases pend' with
        | nil => trivial
        | cons g gs =>
          rw [hsame]
          show AscFrom ((r.typ + 1) % 2 ^ 64) _
          rw [Nat.mod_eq_of_lt (by
            have := hmaxlt (by simp)
            simp only [maxUint64] at this
            omega)]
          exact hasc.2
      case hov =>
        intro hne
        rw [hsame]
        show (st.overflow || (r.typ == maxUint64)) = false
        rw [hov (by simp), Bool.false_or, beq_eq_false_iff_ne]
        exact Nat.ne_of_lt (hmaxlt hne)
      rw [this.1, this.2]
      refine ⟨by simp, rfl⟩

/-- C7: round trip.  Encoding a stream built by `NewStream` from records
with in-range types and sizes, then decoding the produced bytes into a
fresh stream built from an equivalently described list (same types in the
same order, arbitrary initial values), succeeds and reproduces the original
records — types and values — exactly. -/
theorem c7_roundtrip (rs rs2 : List Record) (s1 s2 : Stream)
    (tracked : Bool) (c : Nat)
    (h1 : NewStream rs = .ok s1)
    (hb : ∀ r ∈ rs, r.typ < 2 ^ 64 ∧ r.value.length ≤ MaxRecordSize)
    (h2 : NewStream rs2 = .ok s2)
    (hty : rs2.map Record.typ = rs.map Record.typ) :
    (s2.decode tracked ((s1.Encode ⟨[], none, c⟩).1.written)).recs = rs ∧
    (s2.decode tracked ((s1.Encode ⟨[], none, c⟩).1.written)).err = none := by
  have hs1rec : s1.records = rs := by
    unfold NewStream at h1
    cases hrec : newStreamRecords rs 0 false with
    | error e => rw [hrec] at h1; exact Except.noConfusion h1
    | ok out =>
      rw [hrec] at h1
      injection h1 with h1'
      rw [← h1']
      show out = rs
      exact newStreamRecords_ok_eq hrec
  have hs2rec : s2.records = rs2 := by
    unfold NewStream at h2
    cases hrec : newStreamRecords rs2 0 false with
    | error e => rw [hrec] at h2; exact Except.noConfusion h2
    | ok out =>
      rw [hrec] at h2
      injection h2 with h2'
      rw [← h2']
      show out = rs2
      exact newStreamRecords_ok_eq hrec
  have hasc : AscFrom 0 (rs.map Record.typ) := by
    unfold NewStream at h1
    cases hrec : newStreamRecords rs 0 false with
    | error e => rw [hrec] at h1; exact Except.noConfusion h1
    | ok out => exact newStream_ok_asc (fun r hr => (hb r hr).1) hrec
  have hbytes : (s1.Encode ⟨[], none, c⟩).1.written =
      encodeFrames (rs.map recFrame) := by
    unfold Stream.Encode
    rw [hs1rec, encodeRecords_none]
    show [] ++ (encodeChunks rs).flatten = _
    rw [List.nil_append, encodeChunks_flatten]
  rw [hbytes]
  unfold Stream.decode
  have := decodeLoop_roundtrip rs rs2 [] (initState tracked s2.records)
    (by
      show s2.records = [] ++ rs2
      rw [List.nil_append]
      exact hs2rec)
    rfl rfl hty hasc hb (fun _ => rfl)
  rw [this.1, this.2]
  exact ⟨List.nil_append rs, rfl⟩

/-- Witness for C7: encode a two-record stream and decode into a fresh
stream with the same types but different initial values; the original
records come back exactly. -/
theorem c7_roundtrip_witness :
    ((Stream.mk [⟨2, [5, 6]⟩, ⟨7, []⟩]).decode false
      (((Stream.mk [⟨2, [5, 6]⟩, ⟨7, []⟩]).Encode
        ⟨[], none, 0⟩).1.written)).recs = [⟨2, [5, 6]⟩, ⟨7, []⟩] ∧
    ((Stream.mk [⟨2, [0]⟩, ⟨7, [1, 2, 3]⟩]).decode false
      (((Stream.mk [⟨2, [5, 6]⟩, ⟨7, []⟩]).Encode
        ⟨[], none, 0⟩).1.written)).err = none := by
  have h := c7_roundtrip [⟨2, [5, 6]⟩, ⟨7, []⟩] [⟨2, [0]⟩, ⟨7, [1, 2, 3]⟩]
    (Stream.mk [⟨2, [5, 6]⟩, ⟨7, []⟩]) (Stream.mk [⟨2, [0]⟩, ⟨7, [1, 2, 3]⟩])
    false 0 (by decide) (by decide) (by decide) (by decide)
  have h2 := c7_roundtrip [⟨2, [5, 6]⟩, ⟨7, []⟩] [⟨2, [5, 6]⟩, ⟨7, []⟩]
    (Stream.mk [⟨2, [5, 6]⟩, ⟨7, []⟩]) (Stream.mk [⟨2, [5, 6]⟩, ⟨7, []⟩])
    false 0 (by decide) (by decide) (by decide) (by decide)
  exact ⟨h2.1, h.2⟩

end Tlv
